import Mathlib

/-!
Verification development for the `sync-object` repository
(`src/SyncObject.js`, `src/BidirectionalSyncObject.js`).

The state container (`SyncObject`) holds a tree of string-keyed mapping
nodes whose leaves are JSON scalars.  We embed the runtime values in two
layers:

* `Val` — values that can actually live in a validated state: `null`,
  booleans, numbers, strings and nested plain objects.  A JavaScript
  object is represented by its property list in insertion order
  (`List (String × Val)`); JavaScript objects never carry a duplicate
  key, which the theorems track through the `nodupKeys` predicate.
* `JsVal` — candidate values handed to `validateState`, which may
  additionally contain function values and arrays (the shapes the
  validator rejects).  Cyclic objects (the one way `JSON.stringify` can
  throw here) cannot be represented in an inductive tree, so every
  representable candidate is JSON-serializable.

Numbers are embedded as `Int`: every concrete number appearing in the
repository (source and tests) is an integer, and no arithmetic is
performed on state values, only equality tests.

The merge path writes are embedded exactly as the source performs them:
`flatten` joins nested keys with `"."` into a single path string, and
`object-path`'s `set` splits that string on `"."` again and maps each
segment through `getKey` (a segment whose `parseInt` round-trips — and
the segment `"NaN"` — becomes a JavaScript *number*).  The one effect of
a numeric segment that a mapping-only state cannot express is
`object-path`'s array-creation branch (`typeof path[1] === 'number'`
under a missing node creates `[]` instead of `{}` and the program
continues with an array inside the state); the embedding marks that
branch with the distinguished outcome `JsError.arrayError` instead of
silently misrepresenting it, so every theorem conditioned on a
completed write stays within the domain where the embedding and the
program agree step for step.
-/

namespace SyncSpec

/-- A validated JavaScript state value: `null`, scalar, or plain object
(property list in insertion order). -/
inductive Val where
  | vNull : Val
  | vBool : Bool → Val
  | vInt : Int → Val
  | vStr : String → Val
  | vObj : List (String × Val) → Val
deriving Repr

/-- Property list of a JavaScript object. -/
abbrev Fields := List (String × Val)

mutual

/-- Boolean structural equality on `Val` (models recursive value
comparison; JavaScript `===` on primitives agrees with it, and the
diff helpers only ever reach `===` on primitives). -/
def Val.beq : Val → Val → Bool
  | .vNull, .vNull => true
  | .vBool a, .vBool b => a == b
  | .vInt a, .vInt b => a == b
  | .vStr a, .vStr b => a == b
  | .vObj f, .vObj g => Val.beqFields f g
  | _, _ => false

/-- Structural equality on property lists. -/
def Val.beqFields : Fields → Fields → Bool
  | [], [] => true
  | (k, v) :: f, (l, w) :: g => k == l && Val.beq v w && Val.beqFields f g
  | _, _ => false

end

instance : BEq Val := ⟨Val.beq⟩

mutual

theorem Val.beq_iff : (a b : Val) → (Val.beq a b = true ↔ a = b)
  | .vNull, .vNull => by simp [Val.beq]
  | .vNull, .vBool _ | .vNull, .vInt _ | .vNull, .vStr _ | .vNull, .vObj _ => by
      simp [Val.beq]
  | .vBool _, .vNull | .vBool _, .vInt _ | .vBool _, .vStr _ | .vBool _, .vObj _ => by
      simp [Val.beq]
  | .vBool a, .vBool b => by simp [Val.beq]
  | .vInt _, .vNull | .vInt _, .vBool _ | .vInt _, .vStr _ | .vInt _, .vObj _ => by
      simp [Val.beq]
  | .vInt a, .vInt b => by simp [Val.beq]
  | .vStr _, .vNull | .vStr _, .vBool _ | .vStr _, .vInt _ | .vStr _, .vObj _ => by
      simp [Val.beq]
  | .vStr a, .vStr b => by simp [Val.beq]
  | .vObj _, .vNull | .vObj _, .vBool _ | .vObj _, .vInt _ | .vObj _, .vStr _ => by
      simp [Val.beq]
  | .vObj f, .vObj g => by
      rw [show Val.beq (.vObj f) (.vObj g) = Val.beqFields f g from rfl,
        Val.beqFields_iff f g]
      simp

theorem Val.beqFields_iff : (f g : Fields) → (Val.beqFields f g = true ↔ f = g)
  | [], [] => by simp [Val.beqFields]
  | [], (_, _) :: _ => by simp [Val.beqFields]
  | (_, _) :: _, [] => by simp [Val.beqFields]
  | (k, v) :: f, (l, w) :: g => by
      simp only [Val.beqFields, Bool.and_eq_true, beq_iff_eq,
        Val.beq_iff v w, Val.beqFields_iff f g, List.cons.injEq, Prod.mk.injEq]
      try tauto

end

instance : DecidableEq Val := fun a b =>
  decidable_of_iff (Val.beq a b = true) (Val.beq_iff a b)

/-- First-match property lookup (`obj[key]`). -/
def lookupF (k : String) : Fields → Option Val
  | [] => none
  | (l, v) :: f => if l = k then some v else lookupF k f

/-- Property write `obj[k] = v`: an existing key keeps its insertion
position (JavaScript semantics), a new key is appended. -/
def upsertF (f : Fields) (k : String) (v : Val) : Fields :=
  match f with
  | [] => [(k, v)]
  | (l, w) :: f => if l = k then (l, v) :: f else (l, w) :: upsertF f k v

/-- The keys of a property list, in order. -/
def keysF (f : Fields) : List String := f.map (·.1)

/-- `isObject` of `deep-object-diff` / `isMergeableObject` of `deepmerge`
restricted to our value domain: a (plain) object.  Note JavaScript
`null` is *not* an object for these helpers. -/
def Val.isObjB : Val → Bool
  | .vObj _ => true
  | _ => false

/-- `isEmptyObject` of `deep-object-diff`. -/
def Val.isEmptyObjB : Val → Bool
  | .vObj [] => true
  | _ => false

/-- Candidate values handed to `SyncObject.validateState`: on top of the
serializable shapes they may contain function values and arrays, the
shapes the validator rejects. -/
inductive JsVal where
  | jNull : JsVal
  | jBool : Bool → JsVal
  | jInt : Int → JsVal
  | jStr : String → JsVal
  | jFun : JsVal
  | jArr : List JsVal → JsVal
  | jObj : List (String × JsVal) → JsVal
deriving Repr

/-- `isPlainObject` from the `is-plain-object` package: true exactly for
plain mappings (arrays, `null`, primitives and functions are not plain
objects). -/
def JsVal.isPlainObjB : JsVal → Bool
  | .jObj _ => true
  | _ => false

/-- The outcomes a `SyncObject` mutation can raise.  `shapeError` is the
`TypeError` thrown by `validateState` (the spec's `ShapeError`);
`typeError` is the `TypeError` that escapes from `object-path`'s `set`
when it must create a property on a primitive (strict mode).
`arrayError` is *not* an error of the program: it marks the write
reaching `object-path`'s array-creation branch (a missing intermediate
whose next segment `getKey` turned into a number), where the source
stores a JavaScript array — a value outside this embedding's
mapping-only state domain — and continues.  The embedding refuses that
step instead of misrepresenting it, and theorems about completed writes
are conditioned on the write finishing without it. -/
inductive JsError where
  | shapeError : String → JsError
  | typeError : JsError
  | arrayError : JsError
deriving Repr, DecidableEq

mutual

/-- `_rWalk` of `SyncObject.validateState`: recursively walks own
properties, throwing on a function value or an array value, and
recursing into `typeof val === "object"` values.  (`null` also has
`typeof "object"`, but a `for…in` over `null` visits nothing, so
recursing only into mappings is equivalent.) -/
def rWalk : JsVal → Except JsError Unit
  | .jObj fields => rWalkFields fields
  | _ => Except.ok ()

/-- One pass of `_rWalk` over a property list. -/
def rWalkFields : List (String × JsVal) → Except JsError Unit
  | [] => Except.ok ()
  | (_, v) :: rest =>
    match v with
    | .jFun => Except.error (.shapeError "SyncObject cannot contain functions in its state")
    | .jArr _ => Except.error (.shapeError "SyncObject cannot contain an array in its state")
    | .jObj _ =>
      match rWalk v with
      | Except.ok _ => rWalkFields rest
      | Except.error e => Except.error e
    | _ => rWalkFields rest

end

/-- `SyncObject.validateState`: requires a plain mapping at the root,
JSON-serializability (automatic for the finite trees representable
here — only cyclic objects make `JSON.stringify` throw, and functions
merely serialize as omitted properties), then `_rWalk`. -/
def validateState (state : JsVal) : Except JsError Unit :=
  if !state.isPlainObjB then
    Except.error (.shapeError "State must be a plain JavaScript object")
  else rWalk state

mutual

/-- Does a candidate contain a function value at any depth? -/
def JsVal.hasFunB : JsVal → Bool
  | .jFun => true
  | .jObj f => JsVal.hasFunF f
  | .jArr l => JsVal.hasFunL l
  | _ => false

/-- `hasFunB` over a property list. -/
def JsVal.hasFunF : List (String × JsVal) → Bool
  | [] => false
  | (_, v) :: rest => v.hasFunB || JsVal.hasFunF rest

/-- `hasFunB` over array elements. -/
def JsVal.hasFunL : List JsVal → Bool
  | [] => false
  | v :: rest => v.hasFunB || JsVal.hasFunL rest

end

mutual

/-- Does a candidate contain an array value at any depth (the root
itself included)? -/
def JsVal.hasArrB : JsVal → Bool
  | .jArr _ => true
  | .jObj f => JsVal.hasArrF f
  | _ => false

/-- `hasArrB` over a property list. -/
def JsVal.hasArrF : List (String × JsVal) → Bool
  | [] => false
  | (_, v) :: rest => v.hasArrB || JsVal.hasArrF rest

end

mutual

/-- Conversion of a function-free, array-free candidate into a `Val`. -/
def toVal : JsVal → Option Val
  | .jNull => some .vNull
  | .jBool b => some (.vBool b)
  | .jInt n => some (.vInt n)
  | .jStr s => some (.vStr s)
  | .jFun => none
  | .jArr _ => none
  | .jObj f => (toValFields f).map .vObj

/-- Pointwise conversion of a property list. -/
def toValFields : List (String × JsVal) → Option Fields
  | [] => some []
  | (k, v) :: rest =>
    match toVal v, toValFields rest with
    | some w, some f => some ((k, w) :: f)
    | _, _ => none

end

/-- Is the character a decimal digit? -/
def isDigitChar (c : Char) : Bool := 48 ≤ c.toNat && c.toNat ≤ 57

/-- A non-empty digit string with no leading zero, starting 1–9. -/
def nonzeroLeadDigits : List Char → Bool
  | [] => false
  | c :: cs => 49 ≤ c.toNat && c.toNat ≤ 57 && cs.all isDigitChar

/-- Is the string a canonical integer numeral, i.e. could
`parseInt(key).toString() === key` hold?  (`"0"`, or an optionally
negated digit string without leading zero.)  This is a superset of the
strings JavaScript actually round-trips (precision loss and scientific
notation above `1e21` stop the round trip for huge numerals), which is
the safe direction: where the two differ the embedding flags the
array-creation branch rather than entering it. -/
def isCanonNumeralChars : List Char → Bool
  | [] => false
  | ['0'] => true
  | '-' :: rest => nonzeroLeadDigits rest
  | cs => nonzeroLeadDigits cs

/-- Does `object-path`'s `getKey` turn this segment into a JavaScript
number?  `getKey(key)` returns `parseInt(key)` whenever its decimal
rendering equals the key; `parseInt("NaN")` is `NaN`, whose rendering
is `"NaN"`, so that segment is a number too. -/
def isNumKey (s : String) : Bool :=
  if s = "NaN" then true else isCanonNumeralChars s.data

/-- `path.split(".")`, character by character over an explicit
accumulator (the current segment, reversed). -/
def splitOnDotAux (cur : List Char) : List Char → List String
  | [] => [String.mk cur.reverse]
  | c :: rest =>
    if c = '.' then String.mk cur.reverse :: splitOnDotAux [] rest
    else splitOnDotAux (c :: cur) rest

/-- `path.split(".")` on a path string; always non-empty (`""` splits
to `[""]`, exactly as in JavaScript). -/
def splitPath (s : String) : List String := splitOnDotAux [] s.data

/-- No `"."` among the characters: such a segment survives the
join/split round trip unchanged. -/
def noDotChars : List Char → Bool
  | [] => true
  | c :: rest => if c = '.' then false else noDotChars rest

/-- The path key the `flat` package builds:
`parent ? parent + "." + key : key`. -/
def joinKey (parent : Option String) (k : String) : String :=
  match parent with
  | none => k
  | some p => p ++ "." ++ k

mutual

/-- `flatten` from the `flat` package: depth-first walk in insertion
order; a non-empty mapping recurses with the key joined to the parent
path by `"."`, everything else (scalars, `null`, the empty mapping)
becomes a path/value leaf under the dot-joined path string. -/
def flattenFields (parent : Option String) : Fields → List (String × Val)
  | [] => []
  | (k, v) :: rest => flattenEntry parent k v ++ flattenFields parent rest

/-- One property of the `flatten` walk: recurse into a non-empty
mapping, otherwise produce the leaf. -/
def flattenEntry (parent : Option String) (k : String) : Val → List (String × Val)
  | .vObj [] => [(joinKey parent k, .vObj [])]
  | .vObj f => flattenFields (some (joinKey parent k)) f
  | v => [(joinKey parent k, v)]

end

/-- `object-path`'s `set` below the root (the recursive `set(obj, path,
value)` after the string path was split on `"."` and mapped through
`getKey`).  Writing through a primitive or `null` throws `TypeError`
(strict mode property creation / `hasOwnProperty.call(null, …)`).  A
missing intermediate key is created as `{}` — unless the next segment
is a `getKey` number, in which case the source creates a JavaScript
array (`typeof path[1] === 'number'`) and the embedding stops with the
`arrayError` marker (see `JsError`).  Number segments are otherwise
identical to their decimal strings: JavaScript property access coerces
them back. -/
def objectPathSet : Val → List String → Val → Except JsError Val
  | obj, [], _ => Except.ok obj
  | .vObj f, [k], v => Except.ok (.vObj (upsertF f k v))
  | .vObj f, k :: k2 :: rest, v =>
    (match lookupF k f with
      | some cur => objectPathSet cur (k2 :: rest) v
      | none =>
        if isNumKey k2 then Except.error .arrayError
        else objectPathSet (.vObj []) (k2 :: rest) v).map
      (fun c => .vObj (upsertF f k c))
  | _, _ :: _, _ => Except.error .typeError

/-- `objectPath.set(this._state, segments, value)`: the root is the
state's property list (always a mapping), with the same missing-key
creation rule as below the root. -/
def objectPathSetF (st : Fields) (p : List String) (v : Val) : Except JsError Fields :=
  match p with
  | [] => Except.ok st
  | [k] => Except.ok (upsertF st k v)
  | k :: k2 :: rest =>
    (match lookupF k st with
      | some cur => objectPathSet cur (k2 :: rest) v
      | none =>
        if isNumKey k2 then Except.error .arrayError
        else objectPathSet (.vObj []) (k2 :: rest) v).map (upsertF st k)

/-- The parent path of the repair:
`pathParts.splice(-1, 1); pathParts.join(".")`, re-split by
`object-path`.  Splitting a join is the identity on the (dot-free)
segments, except that the empty join `""` re-splits to `[""]` (the
repair then writes root property `""` — unreachable in practice, since
a single-segment write at the mapping root never throws). -/
def repairSegs (segs : List String) : List String :=
  match segs.dropLast with
  | [] => [""]
  | l => l

/-- The path-write loop of merging `setState`: each flattened path
string is written with `objectPath.set` (splitting on `"."`); on a
`TypeError` the immediate parent path is overwritten with `{}` and the
write is retried once, any error of the repair or the retry
propagating out of `setState`. -/
def mergeWrite (st : Fields) : List (String × Val) → Except JsError Fields
  | [] => Except.ok st
  | (p, v) :: rest =>
    match objectPathSetF st (splitPath p) v with
    | Except.ok st' => mergeWrite st' rest
    | Except.error e =>
      if e = .typeError then
        match objectPathSetF st (repairSegs (splitPath p)) (.vObj []) with
        | Except.ok st1 =>
          match objectPathSetF st1 (splitPath p) v with
          | Except.ok st2 => mergeWrite st2 rest
          | Except.error e2 => Except.error e2
        | Except.error e1 => Except.error e1
      else Except.error e

mutual

/-- `addedDiff` from `deep-object-diff`: the nested mapping of keys
present in the right operand but absent from the left.  Non-mapping
operands (and reference-equal operands) give `{}`; a key present on
both sides contributes its recursive added diff when non-empty.  The
result is always a mapping, represented by its property list. -/
def addedDiff : Val → Val → Fields
  | .vObj lf, .vObj rf => addedDiffFields lf rf
  | _, _ => []

/-- The key fold of `addedDiff` (in right-operand key order). -/
def addedDiffFields : Fields → Fields → Fields
  | _, [] => []
  | lf, (k, rv) :: rest =>
    match lookupF k lf with
    | some lv =>
      match addedDiff lv rv with
      | [] => addedDiffFields lf rest
      | d => (k, .vObj d) :: addedDiffFields lf rest
    | none => (k, rv) :: addedDiffFields lf rest

end

mutual

/-- `updatedDiff` from `deep-object-diff`: reference-equal operands give
`{}` (reached only for equal primitives here — the state and the cloned
update never share references); with a non-mapping on either side the
right operand is returned wholesale; two mappings are folded key by
key. -/
def updatedDiff : Val → Val → Val
  | .vObj lf, .vObj rf => .vObj (updatedDiffFields lf rf)
  | l, r => if l == r then .vObj [] else r

/-- The key fold of `updatedDiff`: keys present on both sides only; a
difference that is an empty mapping is dropped when the left value is an
empty mapping or the right value is a non-empty one. -/
def updatedDiffFields : Fields → Fields → Fields
  | _, [] => []
  | lf, (k, rv) :: rest =>
    match lookupF k lf with
    | some lv =>
      let d := updatedDiff lv rv
      if d.isEmptyObjB && (lv.isEmptyObjB || !rv.isEmptyObjB) then
        updatedDiffFields lf rest
      else (k, d) :: updatedDiffFields lf rest
    | none => updatedDiffFields lf rest

end

/-- The property list `mergeObject` of `deepmerge` starts from: a copy
of the target's properties when the target is mergeable, else none. -/
def deepMergeBase : Val → Fields
  | .vObj tf => tf
  | _ => []

mutual

/-- `deepMerge` re-exported by `phantom-core` (the `deepmerge` package):
with a mapping source, target properties are kept (in place) and source
properties folded over them; a property on both sides recurses when the
source value is mergeable, otherwise the source value wins.  (The
non-mapping-source branch copies the target's properties; it is
unreachable from `setState`, whose operands are always mappings.) -/
def deepMerge : Val → Val → Val
  | t, .vObj sf => .vObj (mergeFields t (deepMergeBase t) sf)
  | t, _ => .vObj (deepMergeBase t)

/-- The source-property fold of `mergeObject`. -/
def mergeFields : Val → Fields → Fields → Fields
  | _, acc, [] => acc
  | t, acc, (k, sv) :: rest =>
    let nv :=
      match t with
      | .vObj tf =>
        match lookupF k tf with
        | some tv => if sv.isObjB then deepMerge tv sv else sv
        | none => sv
      | _ => sv
    mergeFields t (upsertF acc k nv) rest

end

/-- The value `mergeObject` assigns for one source property (the `nv`
of `mergeFields`, as a standalone function): recurse when the property
is on the target and the source value is mergeable, else take the
(clone of the) source value. -/
def mergeEntry (t : Val) (k : String) (sv : Val) : Val :=
  match t with
  | .vObj tf =>
    (match lookupF k tf with
      | some tv => if sv.isObjB then deepMerge tv sv else sv
      | none => sv)
  | _ => sv

theorem mergeFields_cons (t : Val) (acc : Fields) (k : String) (sv : Val)
    (rest : Fields) :
    mergeFields t acc ((k, sv) :: rest) =
      mergeFields t (upsertF acc k (mergeEntry t k sv)) rest := rfl

/-- `diffedUpdatedState` of merging `setState`:
`deepMerge(addedDiff(state, update), updatedDiff(state, update))`,
computed before the state is mutated. -/
def diffedUpdatedState (s u : Fields) : Fields :=
  mergeFields (.vObj (addedDiffFields s u)) (addedDiffFields s u)
    (updatedDiffFields s u)

theorem diffedUpdatedState_eq_deepMerge (s u : Fields) :
    Val.vObj (diffedUpdatedState s u) =
      deepMerge (.vObj (addedDiff (.vObj s) (.vObj u)))
        (updatedDiff (.vObj s) (.vObj u)) := rfl

/-- `setState` after validation succeeded (`u` the converted update).
Returns the new state and the payloads of the `EVT_UPDATED` emissions
(in order).  Replace mode stores the update and always emits it; merge
mode computes the diff, runs the path-write loop (whose `TypeError` can
escape, in which case nothing is emitted), and emits the diff exactly
when it is non-empty. -/
def setStateValidated (st : Fields) (u : Fields) (isMerge : Bool) :
    Except JsError (Fields × List Fields) :=
  if !isMerge then Except.ok (u, [u])
  else
    let d := diffedUpdatedState st u
    match mergeWrite st (flattenFields none u) with
    | Except.ok st' => Except.ok (st', if d.isEmpty then [] else [d])
    | Except.error e => Except.error e

/-- `SyncObject.setState(updatedState, isMerge)`: validates the update
(a `ShapeError` leaves the state untouched), then dispatches on the
merge flag. -/
def setState (st : Fields) (updatedState : JsVal) (isMerge : Bool) :
    Except JsError (Fields × List Fields) :=
  match validateState updatedState with
  | Except.error e => Except.error e
  | Except.ok _ =>
    match toVal updatedState with
    | some (.vObj uf) => setStateValidated st uf isMerge
    | _ => Except.error (.shapeError "State must be a plain JavaScript object")

/-- The `SyncObject` constructor: validates the initial state and
installs a shallow copy of it. -/
def mkSyncObject (initialState : JsVal) : Except JsError Fields :=
  match validateState initialState with
  | Except.error e => Except.error e
  | Except.ok _ =>
    match toVal initialState with
    | some (.vObj f) => Except.ok f
    | _ => Except.error (.shapeError "State must be a plain JavaScript object")

/-- Lexicographic comparison of key characters (the default JavaScript
`Array.sort()` comparator `object-hash` relies on, restricted to the
code-unit order). -/
def charListLe : List Char → List Char → Bool
  | [], _ => true
  | _ :: _, [] => false
  | a :: as, b :: bs =>
    if a.toNat < b.toNat then true
    else if b.toNat < a.toNat then false
    else charListLe as bs

/-- Key order used for fingerprint canonicalization. -/
def keyLe (a b : String) : Bool := charListLe a.data b.data

/-- Insert a property into a key-sorted property list. -/
def insertByKey (x : String × Val) : Fields → Fields
  | [] => [x]
  | y :: ys => if keyLe x.1 y.1 then x :: y :: ys else y :: insertByKey x ys

/-- Sort a property list by key (insertion sort). -/
def sortByKey : Fields → Fields
  | [] => []
  | x :: xs => insertByKey x (sortByKey xs)

mutual

/-- The canonical form `object-hash` serializes: mapping keys are sorted
recursively (`unorderedObjects`, the default), so key insertion order
cannot influence the fingerprint. -/
def canonVal : Val → Val
  | .vObj f => .vObj (sortByKey (canonFields f))
  | v => v

/-- Pointwise canonicalization of a property list. -/
def canonFields : Fields → Fields
  | [] => []
  | (k, v) :: rest => (k, canonVal v) :: canonFields rest

end

mutual

/-- A deterministic serialization of a value, standing in for
`object-hash`'s typed serialization (the SHA-1 applied on top of it is
a fixed function of this string, so determinism and order-insensitivity
of the fingerprint are inherited from it). -/
def encodeVal : Val → String
  | .vNull => "null"
  | .vBool b => if b then "bool:true" else "bool:false"
  | .vInt n => "int:" ++ toString n
  | .vStr s => "str:" ++ toString s.length ++ ":" ++ s
  | .vObj f => "obj:<" ++ encodeFields f ++ ">"

/-- Serialization of a property list. -/
def encodeFields : Fields → String
  | [] => ""
  | (k, v) :: rest =>
    "key:" ++ toString k.length ++ ":" ++ k ++ "=" ++ encodeVal v ++ ";" ++
      encodeFields rest

end

/-- `SyncObject.getHash`: `hash(this._state)` with `object-hash` —
a deterministic digest of the canonical (key-sorted) serialization of
the entire current state. -/
def getHash (st : Fields) : String :=
  encodeVal (canonVal (.vObj st))

/-- The keys of a property list contain no duplicate (a JavaScript
object cannot carry two properties with the same name). -/
def nodupKeysF : Fields → Bool
  | [] => true
  | (k, _) :: rest => !(lookupF k rest).isSome && nodupKeysF rest

mutual

/-- Well-formed value: no duplicate keys at any depth. -/
def wfVal : Val → Bool
  | .vObj f => nodupKeysF f && wfFields f
  | _ => true

/-- Well-formed property list (recursively). -/
def wfFields : Fields → Bool
  | [] => true
  | (_, v) :: rest => wfVal v && wfFields rest

end

/-- Well-formed state: its property list is duplicate-free at all
levels. -/
def wfState (st : Fields) : Bool := nodupKeysF st && wfFields st

/-- Value of a tree at a segment path (descending only through
mappings). -/
def getPath : Val → List String → Option Val
  | v, [] => some v
  | .vObj f, k :: p =>
    match lookupF k f with
    | some w => getPath w p
    | none => none
  | _, _ :: _ => none

/-- A leaf position of a diff tree: anything that is not a non-empty
mapping (scalars, `null`, and the empty mapping `{}`). -/
def Val.isLeafB : Val → Bool
  | .vObj (_ :: _) => false
  | _ => true

/-- Does every property of `f` have a (first-match) counterpart in `g`? -/
def subKeysB (f g : Fields) : Bool :=
  f.all (fun kv => (lookupF kv.1 g).isSome)

mutual

/-- Structural equality of state trees irrespective of key insertion
order: mappings are compared as finite maps, scalars by value. -/
def structEqB : Val → Val → Bool
  | .vObj f, .vObj g => structEqF f g && subKeysB g f
  | a, b => a == b

/-- Every property of `f` is present in `g` with a structurally equal
value. -/
def structEqF : Fields → Fields → Bool
  | [], _ => true
  | (k, v) :: rest, g =>
    (match lookupF k g with
      | some w => structEqB v w
      | none => false) && structEqF rest g

end

/-! ### The convergence channel (`BidirectionalSyncObject.js`)

The channel owns a writable and a read-only `SyncObject` and a single
timeout slot (`this._writeSyncVerificationTimeout`).  Timers are
embedded discretely: the slot stores what the armed `setTimeout`
callback will do and the delay it was armed with; `fireWriteSyncTimeout`
is the elapse of that timer. -/

def DEFAULT_WRITE_RESYNC_THRESHOLD : Nat := 10000

def DEFAULT_FULL_STATE_DEBOUNCE_TIMEOUT : Nat := 1000

/-- The `options` constructor argument (either duration may be
omitted). -/
structure SuppliedOptions where
  writeResyncThreshold : Option Nat
  fullStateDebounceTimeout : Option Nat
deriving Repr, DecidableEq

/-- `this._options`.  The constructor computes
`{ ...DEFAULT_OPTIONS, options }` — the second spread is missing in the
source, so the result carries the two defaults plus the whole supplied
object nested under an `options` property that nothing ever reads. -/
structure ChannelOptions where
  writeResyncThreshold : Nat
  fullStateDebounceTimeout : Nat
  options : SuppliedOptions
deriving Repr, DecidableEq

/-- `{ ...DEFAULT_OPTIONS, options }` as written in the source
(`BidirectionalSyncObject` constructor, line 62). -/
def mergedOptions (options : SuppliedOptions) : ChannelOptions :=
  ChannelOptions.mk DEFAULT_WRITE_RESYNC_THRESHOLD
    DEFAULT_FULL_STATE_DEBOUNCE_TIMEOUT options

/-- Modelled from the spec: the configuration merge the construction
contract describes (`{ ...DEFAULT_OPTIONS, ...options }`), under which a
supplied duration overrides its default.  Used only to exhibit the
divergence of `mergedOptions` from it. -/
def specMergedOptions (options : SuppliedOptions) : ChannelOptions :=
  ChannelOptions.mk
    (options.writeResyncThreshold.getD DEFAULT_WRITE_RESYNC_THRESHOLD)
    (options.fullStateDebounceTimeout.getD DEFAULT_FULL_STATE_DEBOUNCE_TIMEOUT)
    options

/-- What the armed `setTimeout` callback of
`_setWriteSyncTimeoutTask` will do when it fires:
`resyncDeadline` is the `trailing: false` arming (fire calls
`forceFullSync()`), `fullSyncEmit` the `trailing: true` arming (fire
runs the debounced emitter of the full writable state). -/
inductive PendingKind where
  | resyncDeadline : PendingKind
  | fullSyncEmit : PendingKind
deriving Repr, DecidableEq

/-- The single pending timeout slot: its behaviour and the delay (ms)
it was armed with. -/
structure PendingTask where
  kind : PendingKind
  delay : Nat
deriving Repr, DecidableEq

/-- Events the channel emits towards the transport. -/
inductive ChannelEvt where
  | writablePartialSync : Fields → ChannelEvt
  | writableFullSync : Fields → ChannelEvt
  | readOnlySyncUpdateHash : String → ChannelEvt
deriving Repr, DecidableEq

/-- The state of a `BidirectionalSyncObject`. -/
structure Channel where
  writable : Fields
  readOnly : Fields
  opts : ChannelOptions
  writeSyncVerificationTimeout : Option PendingTask
  isDestroyed : Bool
deriving Repr, DecidableEq

/-- The constructor (with both stores supplied; auto-creation only
changes which store object is used, not the channel state modelled
here). -/
def mkChannel (writable readOnly : Fields) (options : SuppliedOptions) : Channel :=
  Channel.mk writable readOnly (mergedOptions options) none false

/-- `forceFullSync()`: arms the slot with the trailing debounced
full-state emitter for `this._options.fullStateDebounceTimeout`
(clearing whatever was pending); nothing is emitted at call time
(`leading` is falsy). -/
def forceFullSync (c : Channel) : Channel × List ChannelEvt :=
  if c.isDestroyed then (c, [])
  else
    let t := PendingTask.mk .fullSyncEmit c.opts.fullStateDebounceTimeout
    ({ c with writeSyncVerificationTimeout := some t }, [])

/-- The armed `setTimeout` elapsing: a no-op on a destroyed channel;
a `trailing: false` arming calls `forceFullSync()`, a `trailing: true`
arming runs the debounced function, emitting the full writable state
read at fire time. -/
def fireWriteSyncTimeout (c : Channel) : Channel × List ChannelEvt :=
  match c.writeSyncVerificationTimeout with
  | none => (c, [])
  | some t =>
    if c.isDestroyed then (c, [])
    else
      let c0 := { c with writeSyncVerificationTimeout := none }
      match t.kind with
      | .resyncDeadline => forceFullSync c0
      | .fullSyncEmit => (c0, [.writableFullSync c0.writable])

/-- `_writableDidPartiallyUpdate(state)`: emits the partial-sync event
immediately (`leading: true`) and arms the verification deadline for
`this._options.writeResyncThreshold`. -/
def writableDidPartiallyUpdate (c : Channel) (state : Fields) :
    Channel × List ChannelEvt :=
  if c.isDestroyed then (c, [])
  else
    let t := PendingTask.mk .resyncDeadline c.opts.writeResyncThreshold
    ({ c with writeSyncVerificationTimeout := some t },
      [.writablePartialSync state])

/-- `verifyReadOnlySyncUpdateHash(hash)`: compares the inbound
fingerprint with the writable store's current one; a match clears the
pending timeout and returns `true`, a mismatch calls `forceFullSync()`
and returns `false`.  The comparison runs synchronously at call time
(this method is not debounced in the source). -/
def verifyReadOnlySyncUpdateHash (c : Channel) (h : String) :
    Channel × List ChannelEvt × Bool :=
  if getHash c.writable = h then
    ({ c with writeSyncVerificationTimeout := none }, [], true)
  else
    let (c1, es) := forceFullSync c
    (c1, es, false)

/-- `receiveReadOnlyState(state, isMerge)`: applies the inbound state to
the read-only store with `setState`, then emits the read-only store's
new full-state hash.  Errors of `setState` propagate to the caller. -/
def receiveReadOnlyState (c : Channel) (state : JsVal) (isMerge : Bool) :
    Except JsError (Channel × List ChannelEvt) :=
  match setState c.readOnly state isMerge with
  | Except.error e => Except.error e
  | Except.ok (s1, _storeEmits) =>
    Except.ok ({ c with readOnly := s1 },
      [.readOnlySyncUpdateHash (getHash s1)])

/-- A mutation of the writable store observed by the channel: the store
runs `setState` and each `EVT_UPDATED` it emits triggers
`_writableDidPartiallyUpdate`. -/
def writableSetState (c : Channel) (u : JsVal) (isMerge : Bool) :
    Except JsError (Channel × List ChannelEvt) :=
  match setState c.writable u isMerge with
  | Except.error e => Except.error e
  | Except.ok (s1, storeEmits) =>
    Except.ok (storeEmits.foldl
      (fun acc d =>
        let r := writableDidPartiallyUpdate acc.1 d
        (r.1, acc.2 ++ r.2))
      ({ c with writable := s1 }, []))

/-- `destroy()`: clears the pending timeout and marks the channel
destroyed. -/
def destroyChannel (c : Channel) : Channel :=
  { c with writeSyncVerificationTimeout := none, isDestroyed := true }

/-- A forced-resync trigger: an application `forceFullSync()` call, or
an inbound fingerprint fed to `verifyReadOnlySyncUpdateHash` that does
not match the writable store (a deadline expiry routes into
`forceFullSync()` as well, see `fireWriteSyncTimeout`). -/
inductive ResyncTrigger where
  | force : ResyncTrigger
  | hashMismatch : String → ResyncTrigger
deriving Repr, DecidableEq

/-- Apply one forced-resync trigger. -/
def applyTrigger (c : Channel) : ResyncTrigger → Channel × List ChannelEvt
  | .force => forceFullSync c
  | .hashMismatch h =>
    let r := verifyReadOnlySyncUpdateHash c h
    (r.1, r.2.1)

/-- Apply a burst of forced-resync triggers back to back (all within
one debounce window: no timer fires in between). -/
def runTriggers (c : Channel) : List ResyncTrigger → Channel × List ChannelEvt
  | [] => (c, [])
  | t :: ts =>
    let r1 := applyTrigger c t
    let r2 := runTriggers r1.1 ts
    (r2.1, r1.2 ++ r2.2)

/-- Do all mismatch triggers of a burst actually mismatch the writable
store's fingerprint? -/
def triggersMismatch (c : Channel) (ts : List ResyncTrigger) : Bool :=
  ts.all fun t =>
    match t with
    | .force => true
    | .hashMismatch h => getHash c.writable != h

/-! ### Basic lemmas on property lists -/

instance {ε α : Type} [DecidableEq ε] [DecidableEq α] :
    DecidableEq (Except ε α) := fun a b =>
  match a, b with
  | .ok x, .ok y => decidable_of_iff (x = y) (by simp)
  | .error e, .error e2 => decidable_of_iff (e = e2) (by simp)
  | .ok _, .error _ => isFalse (by simp)
  | .error _, .ok _ => isFalse (by simp)

theorem lookupF_upsertF_self (f : Fields) (k : String) (v : Val) :
    lookupF k (upsertF f k v) = some v := by
  induction f with
  | nil => simp [upsertF, lookupF]
  | cons x f ih =>
    obtain ⟨l, w⟩ := x
    by_cases hl : l = k
    · simp only [upsertF, if_pos hl, lookupF]
    · simp only [upsertF, if_neg hl, lookupF]
      exact ih

theorem lookupF_upsertF_other (f : Fields) (k k2 : String) (v : Val)
    (h : k2 ≠ k) : lookupF k2 (upsertF f k v) = lookupF k2 f := by
  induction f with
  | nil =>
    simp only [upsertF, lookupF]
    rw [if_neg (fun hh => h hh.symm)]
  | cons x f ih =>
    obtain ⟨l, w⟩ := x
    by_cases hl : l = k
    · simp only [upsertF, if_pos hl, lookupF]
      rw [if_neg (fun hh : l = k2 => h (hl ▸ hh).symm), if_neg (fun hh : l = k2 => h (hl ▸ hh).symm)]
    · simp only [upsertF, if_neg hl, lookupF]
      by_cases h2 : l = k2
      · rw [if_pos h2, if_pos h2]
      · rw [if_neg h2, if_neg h2]
        exact ih

theorem upsertF_upsertF (f : Fields) (k : String) (v w : Val) :
    upsertF (upsertF f k v) k w = upsertF f k w := by
  induction f with
  | nil => simp [upsertF]
  | cons x f ih =>
    obtain ⟨l, u⟩ := x
    by_cases hl : l = k
    · simp only [upsertF, if_pos hl]
    · simp only [upsertF, if_neg hl, ih]

theorem lookupF_mem {f : Fields} {k : String} {v : Val}
    (h : lookupF k f = some v) : (k, v) ∈ f := by
  induction f with
  | nil => simp [lookupF] at h
  | cons x f ih =>
    obtain ⟨l, w⟩ := x
    by_cases hl : l = k
    · rw [lookupF, if_pos hl] at h
      injection h with h
      subst hl h
      exact List.mem_cons_self _ _
    · rw [lookupF, if_neg hl] at h
      exact List.mem_cons_of_mem _ (ih h)

theorem lookupF_isSome_of_mem {f : Fields} {k : String} {v : Val}
    (h : (k, v) ∈ f) : (lookupF k f).isSome := by
  induction f with
  | nil => simp at h
  | cons x f ih =>
    obtain ⟨l, w⟩ := x
    by_cases hl : l = k
    · rw [lookupF, if_pos hl]
      rfl
    · rw [lookupF, if_neg hl]
      rcases List.mem_cons.mp h with h1 | h2
      · exact absurd (congrArg Prod.fst h1).symm hl
      · exact ih h2

/-! ### Claim theorems -/

/-- C10: replace-mode `setState(u, false)` replaces the entire state
with the (validated) update and always emits `EVT_UPDATED` carrying the
update itself — even when the update is structurally equal to the
previous state.  (The only-if-changed rule lives exclusively in the
merge branch.) -/
theorem claim_C10 (st : Fields) (u : JsVal) (uf : Fields)
    (hval : validateState u = Except.ok ())
    (hconv : toVal u = some (.vObj uf)) :
    setState st u false = Except.ok (uf, [uf]) := by
  unfold setState
  rw [hval, hconv]
  rfl

/-- Witness for C10 at the claim's edge case: the update is structurally
equal to the previous state, and the notification still fires, carrying
the full new state. -/
theorem claim_C10_witness :
    validateState (.jObj [("x", .jInt 1)]) = Except.ok () ∧
    toVal (.jObj [("x", .jInt 1)]) = some (.vObj [("x", .vInt 1)]) ∧
    setState [("x", Val.vInt 1)] (.jObj [("x", .jInt 1)]) false =
      Except.ok ([("x", Val.vInt 1)], [[("x", Val.vInt 1)]]) :=
  ⟨by decide, by decide,
    claim_C10 [("x", Val.vInt 1)] (.jObj [("x", .jInt 1)])
      [("x", Val.vInt 1)] (by decide) (by decide)⟩

/-- C4 (code bug): the constructor computes
`this._options = { ...DEFAULT_OPTIONS, options }` — the spread of the
supplied object is missing — so the two timer durations read from
`this._options` are always the defaults (10000 ms and 1000 ms), no
matter what was supplied: the partial-update deadline is always armed
with 10000 and the full-sync debounce always with 1000.  The last two
conjuncts evaluate the failing input `{writeResyncThreshold: 5000,
fullStateDebounceTimeout: 300}`: the source's merge keeps 10000 where
the construction contract (`specMergedOptions`) would yield 5000. -/
theorem claim_C4 :
    (∀ (w r : Fields) (o : SuppliedOptions) (d : Fields),
      (writableDidPartiallyUpdate (mkChannel w r o) d).1.writeSyncVerificationTimeout =
        some (PendingTask.mk .resyncDeadline 10000) ∧
      (forceFullSync (mkChannel w r o)).1.writeSyncVerificationTimeout =
        some (PendingTask.mk .fullSyncEmit 1000)) ∧
    mergedOptions (SuppliedOptions.mk (some 5000) (some 300)) =
      ChannelOptions.mk 10000 1000 (SuppliedOptions.mk (some 5000) (some 300)) ∧
    specMergedOptions (SuppliedOptions.mk (some 5000) (some 300)) =
      ChannelOptions.mk 5000 300 (SuppliedOptions.mk (some 5000) (some 300)) := by
  refine ⟨fun w r o d => ⟨?_, ?_⟩, by decide, by decide⟩ <;>
    simp [writableDidPartiallyUpdate, forceFullSync, mkChannel, mergedOptions,
      DEFAULT_WRITE_RESYNC_THRESHOLD, DEFAULT_FULL_STATE_DEBOUNCE_TIMEOUT]

/-- C5: `verifyReadOnlySyncUpdateHash` returns the boolean outcome of
comparing the inbound fingerprint to the writable store's current one.
A match clears the verification deadline timer (and emits nothing); a
mismatch returns `false`, schedules the (debounced) full sync, whose
firing emits a `full-sync` event carrying the complete writable state,
and a subsequent correct fingerprint then verifies to `true`. -/
theorem claim_C5 (c : Channel) (h : String) (hlive : c.isDestroyed = false) :
    ((verifyReadOnlySyncUpdateHash c h).2.2 = true ↔ getHash c.writable = h) ∧
    (getHash c.writable = h →
      (verifyReadOnlySyncUpdateHash c h).1.writeSyncVerificationTimeout = none ∧
      (verifyReadOnlySyncUpdateHash c h).2.1 = []) ∧
    (getHash c.writable ≠ h →
      (verifyReadOnlySyncUpdateHash c h).2.2 = false ∧
      (verifyReadOnlySyncUpdateHash c h).1.writeSyncVerificationTimeout =
        some (PendingTask.mk .fullSyncEmit c.opts.fullStateDebounceTimeout) ∧
      (fireWriteSyncTimeout (verifyReadOnlySyncUpdateHash c h).1).2 =
        [.writableFullSync c.writable] ∧
      (verifyReadOnlySyncUpdateHash (verifyReadOnlySyncUpdateHash c h).1
        (getHash (verifyReadOnlySyncUpdateHash c h).1.writable)).2.2 = true) := by
  by_cases hh : getHash c.writable = h
  · refine ⟨by simp [verifyReadOnlySyncUpdateHash, hh], fun _ => ?_, fun hcon => absurd hh hcon⟩
    simp [verifyReadOnlySyncUpdateHash, hh]
  · refine ⟨by simp [verifyReadOnlySyncUpdateHash, hh], fun hcon => absurd hcon hh, fun _ => ?_⟩
    simp [verifyReadOnlySyncUpdateHash, hh, forceFullSync, hlive, fireWriteSyncTimeout]

/-- Witness for C5: a concrete live channel fed a mismatching
fingerprint; the hypothesis `isDestroyed = false` is discharged at the
concrete channel. -/
theorem claim_C5_witness :
    (mkChannel [("test", Val.vInt 123)] [] (SuppliedOptions.mk none none)).isDestroyed = false ∧
    (getHash (mkChannel [("test", Val.vInt 123)] [] (SuppliedOptions.mk none none)).writable ≠ "nohash" →
      (verifyReadOnlySyncUpdateHash (mkChannel [("test", Val.vInt 123)] [] (SuppliedOptions.mk none none)) "nohash").2.2 = false ∧
      (verifyReadOnlySyncUpdateHash (mkChannel [("test", Val.vInt 123)] [] (SuppliedOptions.mk none none)) "nohash").1.writeSyncVerificationTimeout =
        some (PendingTask.mk .fullSyncEmit (mkChannel [("test", Val.vInt 123)] [] (SuppliedOptions.mk none none)).opts.fullStateDebounceTimeout) ∧
      (fireWriteSyncTimeout (verifyReadOnlySyncUpdateHash (mkChannel [("test", Val.vInt 123)] [] (SuppliedOptions.mk none none)) "nohash").1).2 =
        [.writableFullSync (mkChannel [("test", Val.vInt 123)] [] (SuppliedOptions.mk none none)).writable] ∧
      (verifyReadOnlySyncUpdateHash (verifyReadOnlySyncUpdateHash (mkChannel [("test", Val.vInt 123)] [] (SuppliedOptions.mk none none)) "nohash").1
        (getHash (verifyReadOnlySyncUpdateHash (mkChannel [("test", Val.vInt 123)] [] (SuppliedOptions.mk none none)) "nohash").1.writable)).2.2 = true) :=
  ⟨by decide,
    (claim_C5 (mkChannel [("test", Val.vInt 123)] [] (SuppliedOptions.mk none none))
      "nohash" (by decide)).2.2⟩

/-- Counterexample to C8.  In `src/BidirectionalSyncObject.js` the
method `verifyReadOnlySyncUpdateHash` is an ordinary synchronous method
(the `writeResyncThreshold / 2` debounce wrapper exists only in an
earlier revision of the file).  Here a channel whose deadline timer is
armed receives one matching fingerprint at call time zero: the call
already returns the boolean match result `true` and has already
cancelled the deadline — under the claimed trailing-edge rate limit of
`writeResyncThreshold / 2 = 5000 ms > 0`, neither effect could be
observable synchronously at the first call (a trailing-debounced
function returns before its body has ever run). -/
theorem claim_C8_counterexample :
    (Channel.mk [("test", Val.vInt 1)] []
        (mergedOptions (SuppliedOptions.mk none none))
        (some (PendingTask.mk .resyncDeadline 10000)) false).opts.writeResyncThreshold / 2 = 5000 ∧
    (verifyReadOnlySyncUpdateHash
        (Channel.mk [("test", Val.vInt 1)] []
          (mergedOptions (SuppliedOptions.mk none none))
          (some (PendingTask.mk .resyncDeadline 10000)) false)
        (getHash [("test", Val.vInt 1)])).2.2 = true ∧
    (verifyReadOnlySyncUpdateHash
        (Channel.mk [("test", Val.vInt 1)] []
          (mergedOptions (SuppliedOptions.mk none none))
          (some (PendingTask.mk .resyncDeadline 10000)) false)
        (getHash [("test", Val.vInt 1)])).1.writeSyncVerificationTimeout = none := by
  refine ⟨rfl, ?_, ?_⟩ <;> decide

/-- C8 (amended): in the current source
`verifyReadOnlySyncUpdateHash` is not rate-limited at all — every call
runs the fingerprint comparison synchronously, returning the match
result at call time and performing its effect (clearing the deadline on
a match, scheduling the debounced full sync on a mismatch)
immediately.  Consequently no verification check is ever left pending
(the part of the claim about the deadline timer holds only
vacuously). -/
theorem claim_C8 (c : Channel) (h : String) (hlive : c.isDestroyed = false) :
    ((verifyReadOnlySyncUpdateHash c h).2.2 =
      decide (getHash c.writable = h)) ∧
    (getHash c.writable = h →
      (verifyReadOnlySyncUpdateHash c h).1 =
        { c with writeSyncVerificationTimeout := none }) ∧
    (getHash c.writable ≠ h →
      (verifyReadOnlySyncUpdateHash c h).1 =
        { c with writeSyncVerificationTimeout :=
                   some (PendingTask.mk .fullSyncEmit c.opts.fullStateDebounceTimeout) }) := by
  by_cases hh : getHash c.writable = h
  · exact ⟨by simp [verifyReadOnlySyncUpdateHash, hh],
      fun _ => by simp [verifyReadOnlySyncUpdateHash, hh],
      fun hcon => absurd hh hcon⟩
  · exact ⟨by simp [verifyReadOnlySyncUpdateHash, hh],
      fun hcon => absurd hcon hh,
      fun _ => by simp [verifyReadOnlySyncUpdateHash, hh, forceFullSync, hlive]⟩

/-- Witness for C8 (amended) at a concrete mismatching call. -/
theorem claim_C8_witness :
    (mkChannel [("w", Val.vInt 9)] [] (SuppliedOptions.mk none none)).isDestroyed = false ∧
    getHash (mkChannel [("w", Val.vInt 9)] [] (SuppliedOptions.mk none none)).writable ≠ "zzz" ∧
    (verifyReadOnlySyncUpdateHash (mkChannel [("w", Val.vInt 9)] [] (SuppliedOptions.mk none none)) "zzz").1 =
      { mkChannel [("w", Val.vInt 9)] [] (SuppliedOptions.mk none none) with
        writeSyncVerificationTimeout :=
          some (PendingTask.mk .fullSyncEmit
                 (mkChannel [("w", Val.vInt 9)] [] (SuppliedOptions.mk none none)).opts.fullStateDebounceTimeout) } :=
  ⟨by decide, by decide,
    (claim_C8 (mkChannel [("w", Val.vInt 9)] [] (SuppliedOptions.mk none none)) "zzz"
      (by decide)).2.2 (by decide)⟩

/-- The channel with the trailing full-sync task armed for the debounce
window read from `this._options` (the state `forceFullSync` leaves a
live channel in). -/
def armedFullSync (c : Channel) : Channel :=
  { c with writeSyncVerificationTimeout :=
             some (PendingTask.mk .fullSyncEmit c.opts.fullStateDebounceTimeout) }

/-- A burst of genuine forced-resync triggers on a live channel leaves
exactly the trailing full-sync task armed and emits nothing while the
burst lasts. -/
theorem runTriggers_armed (ts : List ResyncTrigger) (c : Channel)
    (hlive : c.isDestroyed = false) (hne : ts ≠ [])
    (hmis : triggersMismatch c ts = true) :
    runTriggers c ts = (armedFullSync c, []) := by
  induction ts generalizing c with
  | nil => exact absurd rfl hne
  | cons t ts ih =>
    have hall := hmis
    simp only [triggersMismatch, List.all_cons, Bool.and_eq_true] at hall
    have hstep : applyTrigger c t = (armedFullSync c, []) := by
      cases t with
      | force => simp [applyTrigger, forceFullSync, hlive, armedFullSync]
      | hashMismatch h =>
        have hh : getHash c.writable ≠ h := by
          have := hall.1
          simpa [bne_iff_ne] using this
        simp [applyTrigger, verifyReadOnlySyncUpdateHash, hh, forceFullSync,
          hlive, armedFullSync]
    by_cases hts : ts = []
    · subst hts
      rw [runTriggers, hstep]
      simp [runTriggers]
    · have hmis2 : triggersMismatch (armedFullSync c) ts = true := hall.2
      have hlive2 : (armedFullSync c).isDestroyed = false := hlive
      have h2 := ih (armedFullSync c) hlive2 hts hmis2
      have harmarm : armedFullSync (armedFullSync c) = armedFullSync c := rfl
      rw [runTriggers, hstep]
      simp [h2, harmarm]

/-- C7: a burst of `N ≥ 1` forced-resync triggers (application
`forceFullSync()` calls and genuinely mismatching fingerprints fed to
`verifyReadOnlySyncUpdateHash`; a deadline expiry routes into
`forceFullSync()` as well, last conjunct), arriving back to back within
one debounce window, emits nothing during the burst and produces
exactly one `full-sync` emission — on the trailing edge, when the
debounce timer fires — carrying the entire writable state; after that
single emission nothing remains armed. -/
theorem claim_C7 (c : Channel) (ts : List ResyncTrigger)
    (hlive : c.isDestroyed = false) (hne : ts ≠ [])
    (hmis : triggersMismatch c ts = true) :
    (runTriggers c ts).2 = [] ∧
    (fireWriteSyncTimeout (runTriggers c ts).1).2 =
      [.writableFullSync c.writable] ∧
    (fireWriteSyncTimeout (runTriggers c ts).1).1.writeSyncVerificationTimeout = none ∧
    (∀ d : Nat,
      c.writeSyncVerificationTimeout = some (PendingTask.mk .resyncDeadline d) →
      fireWriteSyncTimeout c =
        forceFullSync { c with writeSyncVerificationTimeout := none }) := by
  have h1 := runTriggers_armed ts c hlive hne hmis
  refine ⟨by rw [h1], ?_, ?_, ?_⟩
  · rw [h1]
    simp [fireWriteSyncTimeout, hlive, armedFullSync]
  · rw [h1]
    simp [fireWriteSyncTimeout, hlive, armedFullSync]
  · intro d hd
    simp [fireWriteSyncTimeout, hd, hlive]

/-- Witness for C7: three rapid triggers (a forced call, a mismatching
fingerprint, another forced call) on a concrete live channel. -/
theorem claim_C7_witness :
    (mkChannel [("t", Val.vInt 7)] [] (SuppliedOptions.mk none none)).isDestroyed = false ∧
    triggersMismatch (mkChannel [("t", Val.vInt 7)] [] (SuppliedOptions.mk none none))
      [.force, .hashMismatch "deadbeef", .force] = true ∧
    (runTriggers (mkChannel [("t", Val.vInt 7)] [] (SuppliedOptions.mk none none))
      [.force, .hashMismatch "deadbeef", .force]).2 = [] ∧
    (fireWriteSyncTimeout (runTriggers (mkChannel [("t", Val.vInt 7)] [] (SuppliedOptions.mk none none))
      [.force, .hashMismatch "deadbeef", .force]).1).2 =
      [.writableFullSync (mkChannel [("t", Val.vInt 7)] [] (SuppliedOptions.mk none none)).writable] :=
  ⟨by decide, by decide,
    (claim_C7 (mkChannel [("t", Val.vInt 7)] [] (SuppliedOptions.mk none none))
      [.force, .hashMismatch "deadbeef", .force] (by decide) (by decide) (by decide)).1,
    (claim_C7 (mkChannel [("t", Val.vInt 7)] [] (SuppliedOptions.mk none none))
      [.force, .hashMismatch "deadbeef", .force] (by decide) (by decide) (by decide)).2.1⟩

/-- Counterexample to C1 as universally stated: from state `{a: 5}`,
the valid merge update `{a: {b: {c: 1}}}` has a non-empty diff, yet no
`EVT_UPDATED` fires — the path-write loop throws a `TypeError` (writing
`a.b.c` must create property `b` on the number `5`, and the repair of
the immediate parent `a.b` hits the same primitive), aborting
`setState` after the diff was computed but before the emission. -/
theorem claim_C1_counterexample :
    diffedUpdatedState [("a", Val.vInt 5)]
      [("a", Val.vObj [("b", Val.vObj [("c", Val.vInt 1)])])] ≠ [] ∧
    setStateValidated [("a", Val.vInt 5)]
      [("a", Val.vObj [("b", Val.vObj [("c", Val.vInt 1)])])] true =
      Except.error .typeError := by
  refine ⟨?_, ?_⟩ <;> decide

/-- Counterexample to C2 as universally stated, in both directions.
(i) Merging the valid update `{p: {q: {r: 1}}}` into `{p: true}` does
not coerce the non-mapping intermediate `p` and write the path —
`setState` throws a `TypeError` instead (the repair only targets the
immediate parent `p.q`, whose own parent is still the boolean), so no
state results at all.  (ii) Retention fails for a dotted update key:
merging `{"a.b": 2}` into `{a: 5, x: 1}` completes, but `object-path`
splits the key, so root property `a` — which the update's key list
never mentions — is rewritten from `5` to `{b: 2}` by the
immediate-parent repair. -/
theorem claim_C2_counterexample :
    setStateValidated [("p", Val.vBool true)]
      [("p", Val.vObj [("q", Val.vObj [("r", Val.vInt 1)])])] true =
      Except.error .typeError ∧
    (setStateValidated [("a", Val.vInt 5), ("x", Val.vInt 1)]
      [("a.b", Val.vInt 2)] true =
      Except.ok ([("a", Val.vObj [("b", Val.vInt 2)]), ("x", Val.vInt 1)],
        [[("a.b", Val.vInt 2)]]) ∧
    "a" ∉ keysF [("a.b", Val.vInt 2)] ∧
    lookupF "a" [("a", Val.vObj [("b", Val.vInt 2)]), ("x", Val.vInt 1)] ≠
      lookupF "a" [("a", Val.vInt 5), ("x", Val.vInt 1)]) := by
  refine ⟨?_, ?_, ?_, ?_⟩ <;> decide

/-- Counterexample to C3's success clause: `{k: {l: {m: 3}}}` is a
plain-mapping, JSON-serializable candidate (validation accepts it), yet
`setState` in merge mode fails on the prior state `{k: 2}` — with the
internal `TypeError` escaping from the path writes, not a
`ShapeError`. -/
theorem claim_C3_counterexample :
    validateState (.jObj [("k", .jObj [("l", .jObj [("m", .jInt 3)])])]) =
      Except.ok () ∧
    setState [("k", Val.vInt 2)]
      (.jObj [("k", .jObj [("l", .jObj [("m", .jInt 3)])])]) true =
      Except.error .typeError := by
  refine ⟨?_, ?_⟩ <;> decide

/-- Counterexample to C9 as universally stated: the inbound state
`{d: {e: {f: 1}}}` is well-formed (validation accepts it), yet
`receiveRemoteState` on a channel whose read-only store holds `{d: 7}`
emits no fingerprint announcement — the merge inside the read-only
store's `setState` throws a `TypeError` (which is not a shape error)
and propagates. -/
theorem claim_C9_counterexample :
    validateState (.jObj [("d", .jObj [("e", .jObj [("f", .jInt 1)])])]) =
      Except.ok () ∧
    receiveReadOnlyState
      (mkChannel [] [("d", Val.vInt 7)] (SuppliedOptions.mk none none))
      (.jObj [("d", .jObj [("e", .jObj [("f", .jInt 1)])])]) true =
      Except.error .typeError := by
  refine ⟨?_, ?_⟩ <;> decide

/-- C9 (amended): `receiveRemoteState(state, isMerge)` applies the
inbound state to the read-only store via its `setState` and, whenever
that operation completes, emits exactly one fingerprint-announcement
carrying the read-only store's new full-state hash.  Any `setState`
error — the `ShapeError` on malformed input (raised before any
mutation, leaving the store unchanged) as well as the internal
`TypeError` a deep merge over a non-mapping can raise — propagates to
the caller, and no announcement is emitted. -/
theorem claim_C9 (c : Channel) (u : JsVal) (isMerge : Bool) :
    (∀ s1 es, setState c.readOnly u isMerge = Except.ok (s1, es) →
      receiveReadOnlyState c u isMerge =
        Except.ok ({ c with readOnly := s1 },
          [.readOnlySyncUpdateHash (getHash s1)])) ∧
    (∀ e, setState c.readOnly u isMerge = Except.error e →
      receiveReadOnlyState c u isMerge = Except.error e) ∧
    (∀ e, validateState u = Except.error e →
      setState c.readOnly u isMerge = Except.error e) := by
  refine ⟨fun s1 es hok => ?_, fun e herr => ?_, fun e hval => ?_⟩
  · simp [receiveReadOnlyState, hok]
  · simp [receiveReadOnlyState, herr]
  · simp [setState, hval]

/-- Witness for C9 (amended) on a successful merge: receiving
`{x: 1}` into an empty read-only store emits the announcement with the
new fingerprint. -/
theorem claim_C9_witness :
    setState (mkChannel [] [] (SuppliedOptions.mk none none)).readOnly
      (.jObj [("x", .jInt 1)]) true =
      Except.ok ([("x", Val.vInt 1)], [[("x", Val.vInt 1)]]) ∧
    receiveReadOnlyState (mkChannel [] [] (SuppliedOptions.mk none none))
      (.jObj [("x", .jInt 1)]) true =
      Except.ok ({ mkChannel [] [] (SuppliedOptions.mk none none) with
                   readOnly := [("x", Val.vInt 1)] },
        [.readOnlySyncUpdateHash (getHash [("x", Val.vInt 1)])]) :=
  ⟨by decide,
    (claim_C9 (mkChannel [] [] (SuppliedOptions.mk none none))
      (.jObj [("x", .jInt 1)]) true).1 [("x", Val.vInt 1)]
      [[("x", Val.vInt 1)]] (by decide)⟩

/-- The recursive walk of `validateState` accepts a property list
exactly when it contains no function and no array at any depth. -/
theorem rWalkFields_ok_iff : (f : List (String × JsVal)) →
    (rWalkFields f = Except.ok () ↔
      (JsVal.hasFunF f = false ∧ JsVal.hasArrF f = false))
  | [] => by simp [rWalkFields, JsVal.hasFunF, JsVal.hasArrF]
  | (k, v) :: rest => by
    cases v with
    | jFun => simp [rWalkFields, JsVal.hasFunF, JsVal.hasFunB]
    | jArr l => simp [rWalkFields, JsVal.hasArrF, JsVal.hasArrB]
    | jObj f2 =>
      have h2 := rWalkFields_ok_iff f2
      have hr := rWalkFields_ok_iff rest
      cases hv : rWalkFields f2 with
      | ok u =>
        obtain ⟨⟩ := u
        rw [hv] at h2
        simp only [rWalkFields, rWalk, hv, JsVal.hasFunF, JsVal.hasArrF,
          JsVal.hasFunB, JsVal.hasArrB, Bool.or_eq_false_iff, hr]
        have h2a := (h2.mp rfl).1
        have h2b := (h2.mp rfl).2
        simp [h2a, h2b]
      | error e =>
        rw [hv] at h2
        simp only [rWalkFields, rWalk, hv, JsVal.hasFunF, JsVal.hasArrF,
          JsVal.hasFunB, JsVal.hasArrB, Bool.or_eq_false_iff]
        constructor
        · intro hcon
          exact absurd hcon (by simp)
        · rintro ⟨⟨hf2, _⟩, ⟨ha2, _⟩⟩
          exact absurd (h2.mpr ⟨hf2, ha2⟩) (by simp)
    | jNull => simp [rWalkFields, JsVal.hasFunF, JsVal.hasArrF,
        JsVal.hasFunB, JsVal.hasArrB, rWalkFields_ok_iff rest]
    | jBool b => simp [rWalkFields, JsVal.hasFunF, JsVal.hasArrF,
        JsVal.hasFunB, JsVal.hasArrB, rWalkFields_ok_iff rest]
    | jInt n => simp [rWalkFields, JsVal.hasFunF, JsVal.hasArrF,
        JsVal.hasFunB, JsVal.hasArrB, rWalkFields_ok_iff rest]
    | jStr s => simp [rWalkFields, JsVal.hasFunF, JsVal.hasArrF,
        JsVal.hasFunB, JsVal.hasArrB, rWalkFields_ok_iff rest]

/-- The walk only throws shape errors (never the merge-internal
`TypeError`). -/
theorem rWalkFields_error_shape : (f : List (String × JsVal)) →
    (e : JsError) → rWalkFields f = Except.error e →
    ∃ msg, e = JsError.shapeError msg
  | [], e => by simp [rWalkFields]
  | (k, v) :: rest, e => by
    cases v with
    | jFun =>
      intro h
      exact ⟨_, (Except.error.inj h).symm⟩
    | jArr l =>
      intro h
      exact ⟨_, (Except.error.inj h).symm⟩
    | jObj f2 =>
      cases hv : rWalk (.jObj f2) with
      | ok u =>
        intro h
        refine rWalkFields_error_shape rest e ?_
        simpa [rWalkFields, hv] using h
      | error e2 =>
        intro h
        have h3 : e2 = e := by simpa [rWalkFields, hv] using h
        exact h3 ▸ rWalkFields_error_shape f2 e2 (by simpa [rWalk] using hv)
    | jNull => exact fun h => rWalkFields_error_shape rest e h
    | jBool b => exact fun h => rWalkFields_error_shape rest e h
    | jInt n => exact fun h => rWalkFields_error_shape rest e h
    | jStr s => exact fun h => rWalkFields_error_shape rest e h

/-- A function-free, array-free property list converts to `Val`
fields. -/
theorem toValFields_isSome : (f : List (String × JsVal)) →
    JsVal.hasFunF f = false → JsVal.hasArrF f = false →
    ∃ g, toValFields f = some g
  | [] => by simp [toValFields]
  | (k, v) :: rest => by
    intro hf ha
    rw [JsVal.hasFunF, Bool.or_eq_false_iff] at hf
    rw [JsVal.hasArrF, Bool.or_eq_false_iff] at ha
    obtain ⟨grest, hgrest⟩ := toValFields_isSome rest hf.2 ha.2
    cases v with
    | jFun => simp [JsVal.hasFunB] at hf
    | jArr l => simp [JsVal.hasArrB] at ha
    | jObj f2 =>
      have hf2 : JsVal.hasFunF f2 = false := by
        have := hf.1
        rwa [JsVal.hasFunB] at this
      have ha2 : JsVal.hasArrF f2 = false := by
        have := ha.1
        rwa [JsVal.hasArrB] at this
      obtain ⟨g2, hg2⟩ := toValFields_isSome f2 hf2 ha2
      exact ⟨(k, .vObj g2) :: grest, by simp [toValFields, toVal, hg2, hgrest]⟩
    | jNull => exact ⟨(k, .vNull) :: grest, by simp [toValFields, toVal, hgrest]⟩
    | jBool b => exact ⟨(k, .vBool b) :: grest, by simp [toValFields, toVal, hgrest]⟩
    | jInt n => exact ⟨(k, .vInt n) :: grest, by simp [toValFields, toVal, hgrest]⟩
    | jStr s => exact ⟨(k, .vStr s) :: grest, by simp [toValFields, toVal, hgrest]⟩

/-- C3 (amended): `validateState` — and with it construction and the
validation step of every `setState` — accepts exactly the plain-mapping
candidates containing no function and no array at any depth (every
representable candidate is JSON-serializable; only cyclic objects,
which a finite tree cannot express, fail `JSON.stringify`).  Rejection
is always a `ShapeError` (never the merge-internal `TypeError`), the
constructor succeeds exactly on validated candidates, and a validation
failure aborts `setState` before any mutation, so the store is left
unchanged.  (The success clause of the original claim fails for
merge-mode `setState`: see the counterexample, where a validated update
still makes the path writes throw.) -/
theorem claim_C3 :
    (∀ s : JsVal, validateState s = Except.ok () ↔
      (s.isPlainObjB = true ∧ s.hasFunB = false ∧ s.hasArrB = false)) ∧
    (∀ s : JsVal, (∃ f, mkSyncObject s = Except.ok f) ↔
      validateState s = Except.ok ()) ∧
    (∀ (s : JsVal) (e : JsError), validateState s = Except.error e →
      ∃ msg, e = JsError.shapeError msg) ∧
    (∀ (st : Fields) (u : JsVal) (m : Bool) (e : JsError),
      validateState u = Except.error e → setState st u m = Except.error e) := by
  have hval : ∀ s : JsVal, validateState s = Except.ok () ↔
      (s.isPlainObjB = true ∧ s.hasFunB = false ∧ s.hasArrB = false) := by
    intro s
    cases s with
    | jObj f =>
      rw [validateState]
      simp only [JsVal.isPlainObjB, Bool.not_true, Bool.false_eq_true,
        if_false, rWalk, JsVal.hasFunB, JsVal.hasArrB]
      rw [rWalkFields_ok_iff f]
      simp
    | jNull => simp [validateState, JsVal.isPlainObjB]
    | jBool b => simp [validateState, JsVal.isPlainObjB]
    | jInt n => simp [validateState, JsVal.isPlainObjB]
    | jStr t => simp [validateState, JsVal.isPlainObjB]
    | jFun => simp [validateState, JsVal.isPlainObjB]
    | jArr l => simp [validateState, JsVal.isPlainObjB]
  refine ⟨hval, fun s => ⟨fun hmk => ?_, fun hok => ?_⟩, fun s e he => ?_,
    fun st u m e he => by simp [setState, he]⟩
  · obtain ⟨f, hf⟩ := hmk
    rw [mkSyncObject] at hf
    revert hf
    cases hv : validateState s with
    | ok u =>
      obtain ⟨⟩ := u
      exact fun _ => rfl
    | error e => simp
  · have hshape := (hval s).mp hok
    obtain ⟨hobj, hfun, harr⟩ := hshape
    cases s with
    | jObj f =>
      rw [JsVal.hasFunB] at hfun
      rw [JsVal.hasArrB] at harr
      obtain ⟨g, hg⟩ := toValFields_isSome f hfun harr
      exact ⟨g, by simp [mkSyncObject, hok, toVal, hg]⟩
    | jNull => simp [JsVal.isPlainObjB] at hobj
    | jBool b => simp [JsVal.isPlainObjB] at hobj
    | jInt n => simp [JsVal.isPlainObjB] at hobj
    | jStr t => simp [JsVal.isPlainObjB] at hobj
    | jFun => simp [JsVal.isPlainObjB] at hobj
    | jArr l => simp [JsVal.isPlainObjB] at hobj
  · rw [validateState] at he
    revert he
    cases hobj : s.isPlainObjB with
    | false =>
      intro he
      simp only [Bool.not_false, if_true] at he
      exact ⟨_, (Except.error.inj he).symm⟩
    | true =>
      intro he
      simp only [Bool.not_true, Bool.false_eq_true, if_false] at he
      cases s with
      | jObj f => exact rWalkFields_error_shape f e (by rwa [rWalk] at he)
      | jNull => simp [rWalk] at he
      | jBool b => simp [rWalk] at he
      | jInt n => simp [rWalk] at he
      | jStr t => simp [rWalk] at he
      | jFun => simp [rWalk] at he
      | jArr l => simp [rWalk] at he

/-- Witness for C3 (amended): a rejected candidate (nested array) whose
rejection is a `ShapeError` and leaves `setState` without effect, and
an accepted plain candidate constructing successfully. -/
theorem claim_C3_witness :
    validateState (.jObj [("foo", .jObj [("items", .jArr [.jStr "shoes"])])]) =
      Except.error (.shapeError "SyncObject cannot contain an array in its state") ∧
    setState [("a", Val.vInt 1)]
      (.jObj [("foo", .jObj [("items", .jArr [.jStr "shoes"])])]) true =
      Except.error (.shapeError "SyncObject cannot contain an array in its state") ∧
    (validateState (.jObj [("x", .jInt 1)]) = Except.ok () ↔
      ((JsVal.jObj [("x", .jInt 1)]).isPlainObjB = true ∧
        (JsVal.jObj [("x", .jInt 1)]).hasFunB = false ∧
        (JsVal.jObj [("x", .jInt 1)]).hasArrB = false)) :=
  ⟨by decide,
    claim_C3.2.2.2 [("a", Val.vInt 1)]
      (.jObj [("foo", .jObj [("items", .jArr [.jStr "shoes"])])]) true
      (.shapeError "SyncObject cannot contain an array in its state") (by decide),
    claim_C3.1 (.jObj [("x", .jInt 1)])⟩

/-- A successful `objectPath.set` only touches the root property named
by the head of its path. -/
theorem objectPathSetF_other_key (st : Fields) (p : List String) (v : Val)
    (st' : Fields) (k : String) (hok : objectPathSetF st p v = Except.ok st')
    (hk : p.head? ≠ some k) : lookupF k st' = lookupF k st := by
  cases p with
  | nil =>
    rw [objectPathSetF] at hok
    injection hok with hok
    rw [← hok]
  | cons k1 ptail =>
    have hk1 : k ≠ k1 := by
      intro hcon
      exact hk (by rw [hcon]; rfl)
    cases ptail with
    | nil =>
      rw [objectPathSetF] at hok
      injection hok with hok
      rw [← hok]
      exact lookupF_upsertF_other st k1 k v hk1
    | cons k2 rest =>
      cases hcur : lookupF k1 st with
      | some cur =>
        simp only [objectPathSetF, hcur] at hok
        cases hset : objectPathSet cur (k2 :: rest) v with
        | ok c =>
          rw [hset] at hok
          simp only [Except.map] at hok
          injection hok with hok
          rw [← hok]
          exact lookupF_upsertF_other st k1 k c hk1
        | error e =>
          rw [hset] at hok
          simp [Except.map] at hok
      | none =>
        simp only [objectPathSetF, hcur] at hok
        by_cases hnum : isNumKey k2 = true
        · rw [if_pos hnum] at hok
          simp [Except.map] at hok
        · rw [if_neg hnum] at hok
          cases hset : objectPathSet (.vObj []) (k2 :: rest) v with
          | ok c =>
            rw [hset] at hok
            simp only [Except.map] at hok
            injection hok with hok
            rw [← hok]
            exact lookupF_upsertF_other st k1 k c hk1
          | error e =>
            rw [hset] at hok
            simp [Except.map] at hok

/-- The repair path of a two-or-more-segment path keeps its head. -/
theorem repairSegs_head (k1 k2 : String) (r : List String) :
    (repairSegs (k1 :: k2 :: r)).head? = some k1 := rfl

/-- A successful merge write loop preserves every root property whose
key heads none of the written (split) paths. -/
theorem mergeWrite_other_key (paths : List (String × Val))
    (st st' : Fields) (k : String)
    (hok : mergeWrite st paths = Except.ok st')
    (hk : ∀ pv ∈ paths, (splitPath pv.1).head? ≠ some k) :
    lookupF k st' = lookupF k st := by
  induction paths generalizing st with
  | nil =>
    rw [mergeWrite] at hok
    injection hok with hok
    rw [← hok]
  | cons pv rest ih =>
    obtain ⟨p, v⟩ := pv
    have hkp : (splitPath p).head? ≠ some k := hk (p, v) (List.mem_cons_self _ _)
    have hkrest : ∀ pv2 ∈ rest, (splitPath pv2.1).head? ≠ some k :=
      fun pv2 hm => hk pv2 (List.mem_cons_of_mem _ hm)
    cases hset : objectPathSetF st (splitPath p) v with
    | ok st1 =>
      simp only [mergeWrite, hset] at hok
      rw [ih st1 hok hkrest]
      exact objectPathSetF_other_key st (splitPath p) v st1 k hset hkp
    | error e =>
      simp only [mergeWrite, hset] at hok
      by_cases he : e = .typeError
      · rw [if_pos he] at hok
        cases hsp : splitPath p with
        | nil =>
          rw [hsp] at hset
          simp [objectPathSetF] at hset
        | cons k1 ptail =>
          cases ptail with
          | nil =>
            rw [hsp] at hset
            simp [objectPathSetF] at hset
          | cons k2 pr =>
            have hkdrop : (repairSegs (splitPath p)).head? ≠ some k := by
              rw [hsp, repairSegs_head k1 k2 pr]
              intro hcon
              apply hkp
              rw [hsp]
              simpa using hcon
            cases hrep : objectPathSetF st (repairSegs (splitPath p)) (.vObj []) with
            | ok st1 =>
              simp only [hrep] at hok
              cases hretry : objectPathSetF st1 (splitPath p) v with
              | ok st2 =>
                simp only [hretry] at hok
                rw [ih st2 hok hkrest,
                  objectPathSetF_other_key st1 (splitPath p) v st2 k hretry hkp]
                exact objectPathSetF_other_key st (repairSegs (splitPath p))
                  (.vObj []) st1 k hrep hkdrop
              | error e2 =>
                simp only [hretry] at hok
                simp at hok
            | error e1 =>
              simp only [hrep] at hok
              simp at hok
      · rw [if_neg he] at hok
        simp at hok

/-- `String.mk` undoes `String.data`. -/
theorem string_mk_data (s : String) : String.mk s.data = s := by
  cases s
  rfl

/-- Character list of a string concatenation. -/
theorem string_data_append (s t : String) : (s ++ t).data = s.data ++ t.data := by
  cases s
  cases t
  rfl

/-- Splitting past a dot-free chunk up to an explicit `'.'`. -/
theorem splitOnDotAux_append : ∀ (cs : List Char), noDotChars cs = true →
    ∀ (cur rest : List Char),
    splitOnDotAux cur (cs ++ '.' :: rest) =
      String.mk (cur.reverse ++ cs) :: splitOnDotAux [] rest
  | [], _, cur, rest => by
    rw [List.nil_append, splitOnDotAux, if_pos rfl, List.append_nil]
  | c :: cs, h, cur, rest => by
    rw [noDotChars] at h
    by_cases hc : c = '.'
    · rw [if_pos hc] at h
      exact Bool.noConfusion h
    · rw [if_neg hc] at h
      rw [List.cons_append, splitOnDotAux, if_neg hc,
        splitOnDotAux_append cs h (c :: cur) rest, List.reverse_cons,
        List.append_assoc]
      rfl

/-- Splitting a dot-free remainder yields the one final segment. -/
theorem splitOnDotAux_nodot : ∀ (cs : List Char), noDotChars cs = true →
    ∀ (cur : List Char),
    splitOnDotAux cur cs = [String.mk (cur.reverse ++ cs)]
  | [], _, cur => by
    rw [splitOnDotAux, List.append_nil]
  | c :: cs, h, cur => by
    rw [noDotChars] at h
    by_cases hc : c = '.'
    · rw [if_pos hc] at h
      exact Bool.noConfusion h
    · rw [if_neg hc] at h
      rw [splitOnDotAux, if_neg hc, splitOnDotAux_nodot cs h (c :: cur),
        List.reverse_cons, List.append_assoc]
      rfl

/-- The head segment of splitting a path that starts with a dot-free
key followed by nothing or by a `'.'`. -/
theorem splitPath_head (k0 : String) (ext : List Char)
    (hnd : noDotChars k0.data = true)
    (hext : ext = [] ∨ ∃ cs, ext = '.' :: cs) :
    (splitOnDotAux [] (k0.data ++ ext)).head? = some k0 := by
  rcases hext with rfl | ⟨cs, rfl⟩
  · rw [List.append_nil, splitOnDotAux_nodot k0.data hnd []]
    simp [string_mk_data]
  · rw [splitOnDotAux_append k0.data hnd [] cs]
    simp [string_mk_data]

/-- Splitting the join of two dot-free segments recovers them. -/
theorem splitPath_two (k1 k2 : String) (h1 : noDotChars k1.data = true)
    (h2 : noDotChars k2.data = true) :
    splitPath (k1 ++ "." ++ k2) = [k1, k2] := by
  show splitOnDotAux [] (k1 ++ "." ++ k2).data = [k1, k2]
  have hd : (k1 ++ "." ++ k2).data = k1.data ++ '.' :: k2.data := by
    rw [string_data_append, string_data_append, List.append_assoc]
    rfl
  rw [hd, splitOnDotAux_append k1.data h1 [] k2.data,
    splitOnDotAux_nodot k2.data h2 []]
  simp [string_mk_data]

mutual

/-- Every path string `flatten` produces is some key of the flattened
property list, followed by nothing or by a `'.'` and more. -/
theorem flattenFields_data : ∀ (f : Fields) (parent : Option String)
    (pv : String × Val), pv ∈ flattenFields parent f →
    ∃ (k : String) (ext : List Char), k ∈ keysF f ∧
      pv.1.data = (joinKey parent k).data ++ ext ∧
      (ext = [] ∨ ∃ cs, ext = '.' :: cs)
  | [], parent, pv => by simp [flattenFields]
  | (k, v) :: rest, parent, pv => by
    intro hm
    rw [flattenFields] at hm
    rcases List.mem_append.mp hm with hm1 | hm2
    · obtain ⟨ext, h1, h2⟩ := flattenEntry_data v parent k pv hm1
      exact ⟨k, ext, by simp [keysF], h1, h2⟩
    · obtain ⟨k0, ext, h0, h1, h2⟩ := flattenFields_data rest parent pv hm2
      exact ⟨k0, ext, by simp [keysF] at h0 ⊢; exact Or.inr h0, h1, h2⟩

/-- Every path string a single `flatten` entry produces starts with
that entry's key joined to the parent path. -/
theorem flattenEntry_data : ∀ (v : Val) (parent : Option String)
    (k : String) (pv : String × Val), pv ∈ flattenEntry parent k v →
    ∃ ext, pv.1.data = (joinKey parent k).data ++ ext ∧
      (ext = [] ∨ ∃ cs, ext = '.' :: cs)
  | .vObj [], parent, k, pv => by
    intro hm
    have hm2 : pv = (joinKey parent k, Val.vObj []) := List.mem_singleton.mp hm
    exact ⟨[], by simp [hm2], Or.inl rfl⟩
  | .vObj (e :: f2), parent, k, pv => by
    intro hm
    obtain ⟨k2, ext2, h0, h1, h2⟩ :=
      flattenFields_data (e :: f2) (some (joinKey parent k)) pv hm
    refine ⟨'.' :: (k2.data ++ ext2), ?_, Or.inr ⟨_, rfl⟩⟩
    rw [h1]
    show (joinKey parent k ++ "." ++ k2).data ++ ext2 =
      (joinKey parent k).data ++ '.' :: (k2.data ++ ext2)
    rw [string_data_append, string_data_append, List.append_assoc,
      List.append_assoc]
    rfl
  | .vNull, parent, k, pv => by
    intro hm
    have hm2 : pv = (joinKey parent k, Val.vNull) := List.mem_singleton.mp hm
    exact ⟨[], by simp [hm2], Or.inl rfl⟩
  | .vBool b, parent, k, pv => by
    intro hm
    have hm2 : pv = (joinKey parent k, Val.vBool b) := List.mem_singleton.mp hm
    exact ⟨[], by simp [hm2], Or.inl rfl⟩
  | .vInt n, parent, k, pv => by
    intro hm
    have hm2 : pv = (joinKey parent k, Val.vInt n) := List.mem_singleton.mp hm
    exact ⟨[], by simp [hm2], Or.inl rfl⟩
  | .vStr s, parent, k, pv => by
    intro hm
    have hm2 : pv = (joinKey parent k, Val.vStr s) := List.mem_singleton.mp hm
    exact ⟨[], by simp [hm2], Or.inl rfl⟩

end

/-- C2 (amended): merging `setState` writes the update along its
flattened dot-joined paths, which `object-path` splits on `"."` again.
When the write loop completes and every root key of the update is
dot-free, each root property of the prior state whose key the update
does not mention is retained (for an update key containing a dot it is
the key's first `"."`-segment that is written, not the literal key —
see the counterexample); and an intermediate segment holding a
non-mapping value is coerced to an empty mapping before the write
*provided it is the immediate parent of the written leaf* (second
conjunct: the `TypeError` of the first write is caught, the parent is
overwritten with `{}`, and the retried write lands).  When the
non-mapping sits more than one level above the leaf, the repair itself
throws and `setState` fails. -/
theorem claim_C2 :
    (∀ (s u s' : Fields) (evts : List Fields),
      (keysF u).all (fun k0 => noDotChars k0.data) = true →
      setStateValidated s u true = Except.ok (s', evts) →
      ∀ k, k ∉ keysF u → lookupF k s' = lookupF k s) ∧
    (∀ (st : Fields) (k1 k2 : String) (v cur : Val),
      noDotChars k1.data = true → noDotChars k2.data = true →
      lookupF k1 st = some cur → cur.isObjB = false →
      mergeWrite st [(k1 ++ "." ++ k2, v)] =
        Except.ok (upsertF st k1 (.vObj [(k2, v)]))) := by
  constructor
  · intro s u s' evts hnd hok k hku
    have hnd2 : ∀ k0 ∈ keysF u, noDotChars k0.data = true := by
      intro k0 hk0
      exact List.all_eq_true.mp hnd k0 hk0
    have hmw : mergeWrite s (flattenFields none u) = Except.ok s' := by
      revert hok
      rw [setStateValidated]
      cases hm : mergeWrite s (flattenFields none u) with
      | ok st1 =>
        intro hok
        simp only [Bool.not_true, if_neg] at hok
        simp at hok
        rw [hok.1]
      | error e =>
        intro hok
        simp at hok
    refine mergeWrite_other_key (flattenFields none u) s s' k hmw ?_
    intro pv hm hcon
    obtain ⟨k0, ext, h0, h1, h2⟩ := flattenFields_data u none pv hm
    have h1b : pv.1.data = k0.data ++ ext := h1
    have hh : (splitPath pv.1).head? = some k0 := by
      show (splitOnDotAux [] pv.1.data).head? = some k0
      rw [h1b]
      exact splitPath_head k0 ext (hnd2 k0 h0) h2
    rw [hh] at hcon
    exact hku (Option.some.inj hcon ▸ h0)
  · intro st k1 k2 v cur h1 h2 hcur hnotobj
    have hsp : splitPath (k1 ++ "." ++ k2) = [k1, k2] := splitPath_two k1 k2 h1 h2
    have herr : objectPathSetF st [k1, k2] v = Except.error .typeError := by
      simp only [objectPathSetF, hcur]
      cases cur with
      | vObj f => simp [Val.isObjB] at hnotobj
      | vNull => rfl
      | vBool b => rfl
      | vInt n => rfl
      | vStr s2 => rfl
    have hrep : objectPathSetF st (repairSegs [k1, k2]) (.vObj []) =
        Except.ok (upsertF st k1 (.vObj [])) := by
      rfl
    have hretry : objectPathSetF (upsertF st k1 (.vObj [])) [k1, k2] v =
        Except.ok (upsertF (upsertF st k1 (.vObj [])) k1 (.vObj [(k2, v)])) := by
      simp only [objectPathSetF, lookupF_upsertF_self, objectPathSet, upsertF,
        Except.map]
    rw [mergeWrite, hsp, herr]
    simp only [if_pos rfl, hrep, hretry, mergeWrite, upsertF_upsertF]
    simp

/-! ### Fingerprint order-insensitivity (claim C6) -/

theorem char_toNat_inj {a b : Char} (h : a.toNat = b.toNat) : a = b :=
  Char.eq_of_val_eq (UInt32.eq_of_val_eq (Fin.eq_of_val_eq h))

theorem string_data_inj {a b : String} (h : a.data = b.data) : a = b := by
  cases a
  cases b
  exact congrArg String.mk h

theorem charListLe_cons_iff (a b : Char) (as bs : List Char) :
    charListLe (a :: as) (b :: bs) = true ↔
      (a.toNat < b.toNat ∨ (a.toNat = b.toNat ∧ charListLe as bs = true)) := by
  rw [charListLe]
  split_ifs with h1 h2
  · simp [h1]
  · constructor
    · intro h
      exact absurd h (by simp)
    · rintro (h | ⟨h, _⟩)
      · exact absurd h h1
      · omega
  · have heq : a.toNat = b.toNat := by omega
    simp [heq]

theorem charListLe_total : ∀ as bs : List Char,
    charListLe as bs = true ∨ charListLe bs as = true
  | [], _ => Or.inl rfl
  | _ :: _, [] => Or.inr rfl
  | a :: as, b :: bs => by
    rcases Nat.lt_trichotomy a.toNat b.toNat with hlt | heq | hgt
    · exact Or.inl ((charListLe_cons_iff a b as bs).mpr (Or.inl hlt))
    · rcases charListLe_total as bs with h | h
      · exact Or.inl ((charListLe_cons_iff a b as bs).mpr (Or.inr ⟨heq, h⟩))
      · exact Or.inr ((charListLe_cons_iff b a bs as).mpr (Or.inr ⟨heq.symm, h⟩))
    · exact Or.inr ((charListLe_cons_iff b a bs as).mpr (Or.inl hgt))

theorem charListLe_antisymm : ∀ as bs : List Char,
    charListLe as bs = true → charListLe bs as = true → as = bs
  | [], [] => fun _ _ => rfl
  | [], _ :: _ => fun _ h2 => by simp [charListLe] at h2
  | _ :: _, [] => fun h1 _ => by simp [charListLe] at h1
  | a :: as, b :: bs => fun h1 h2 => by
    rw [charListLe_cons_iff] at h1 h2
    rcases h1 with h1 | ⟨h1e, h1r⟩ <;> rcases h2 with h2 | ⟨h2e, h2r⟩
    · omega
    · omega
    · omega
    · rw [char_toNat_inj h1e, charListLe_antisymm as bs h1r h2r]

theorem charListLe_trans : ∀ as bs cs : List Char,
    charListLe as bs = true → charListLe bs cs = true →
    charListLe as cs = true
  | [], _, _ => fun _ _ => rfl
  | _ :: _, [], _ => fun h1 _ => by simp [charListLe] at h1
  | _ :: _, _ :: _, [] => fun _ h2 => by simp [charListLe] at h2
  | a :: as, b :: bs, c :: cs => fun h1 h2 => by
    rw [charListLe_cons_iff] at h1 h2 ⊢
    rcases h1 with h1 | ⟨h1e, h1r⟩ <;> rcases h2 with h2 | ⟨h2e, h2r⟩
    · exact Or.inl (by omega)
    · exact Or.inl (by omega)
    · exact Or.inl (by omega)
    · exact Or.inr ⟨by omega, charListLe_trans as bs cs h1r h2r⟩

theorem keyLe_total (a b : String) : keyLe a b = true ∨ keyLe b a = true :=
  charListLe_total a.data b.data

theorem keyLe_antisymm {a b : String} (h1 : keyLe a b = true)
    (h2 : keyLe b a = true) : a = b :=
  string_data_inj (charListLe_antisymm a.data b.data h1 h2)

theorem keyLe_trans {a b c : String} (h1 : keyLe a b = true)
    (h2 : keyLe b c = true) : keyLe a c = true :=
  charListLe_trans a.data b.data c.data h1 h2

/-- The property list is sorted by key. -/
def sortedByKey (l : Fields) : Prop :=
  l.Pairwise (fun x y => keyLe x.1 y.1 = true)

theorem insertByKey_perm (x : String × Val) :
    ∀ l : Fields, (insertByKey x l).Perm (x :: l)
  | [] => List.Perm.refl _
  | y :: ys => by
    rw [insertByKey]
    split_ifs with h
    · exact List.Perm.refl _
    · exact List.Perm.trans (List.Perm.cons y (insertByKey_perm x ys))
        (List.Perm.swap x y ys)

theorem sortByKey_perm : ∀ l : Fields, (sortByKey l).Perm l
  | [] => List.Perm.refl _
  | x :: xs =>
    List.Perm.trans (insertByKey_perm x (sortByKey xs))
      (List.Perm.cons x (sortByKey_perm xs))

theorem insertByKey_sorted (x : String × Val) :
    ∀ l : Fields, sortedByKey l → sortedByKey (insertByKey x l)
  | [] => fun _ => by simp [insertByKey, sortedByKey]
  | y :: ys => fun hs => by
    have hy := List.pairwise_cons.mp hs
    rw [insertByKey]
    split_ifs with h
    · refine List.pairwise_cons.mpr ⟨?_, hs⟩
      intro z hz
      rcases List.mem_cons.mp hz with hzy | hz2
      · rw [hzy]
        exact h
      · exact keyLe_trans h (hy.1 z hz2)
    · have hyx : keyLe y.1 x.1 = true := by
        rcases keyLe_total x.1 y.1 with ht | ht
        · exact absurd ht h
        · exact ht
      refine List.pairwise_cons.mpr ⟨?_, insertByKey_sorted x ys hy.2⟩
      intro z hz
      have hz2 := (insertByKey_perm x ys).mem_iff.mp hz
      rcases List.mem_cons.mp hz2 with hzx | hz3
      · rw [hzx]
        exact hyx
      · exact hy.1 z hz3

theorem sortByKey_sorted : ∀ l : Fields, sortedByKey (sortByKey l)
  | [] => List.Pairwise.nil
  | x :: xs => insertByKey_sorted x (sortByKey xs) (sortByKey_sorted xs)

theorem lookupF_none_iff (k : String) :
    ∀ l : Fields, lookupF k l = none ↔ k ∉ keysF l
  | [] => by simp [lookupF, keysF]
  | (l1, w) :: rest => by
    by_cases h : l1 = k
    · simp [lookupF, keysF, h]
    · simp [lookupF, keysF, h, lookupF_none_iff k rest, Ne.symm h]

theorem lookupF_mem_keys {k : String} {l : Fields} {v : Val}
    (h : lookupF k l = some v) : k ∈ keysF l := by
  by_contra hcon
  rw [(lookupF_none_iff k l).mpr hcon] at h
  exact Option.noConfusion h

theorem lookupF_perm (k : String) : ∀ {l l' : Fields}, l.Perm l' →
    (keysF l).Nodup → lookupF k l = lookupF k l' := by
  intro l l' hp
  induction hp with
  | nil => exact fun _ => rfl
  | cons x h ih =>
    intro hn
    obtain ⟨kx, vx⟩ := x
    simp only [keysF, List.map_cons, List.nodup_cons] at hn
    by_cases hk : kx = k <;> simp [lookupF, hk, ih hn.2]
  | swap x y t =>
    intro hn
    obtain ⟨kx, vx⟩ := x
    obtain ⟨ky, vy⟩ := y
    simp only [keysF, List.map_cons, List.nodup_cons] at hn
    have hxy : ky ≠ kx := fun hcon =>
      hn.1 (by rw [hcon]; exact List.mem_cons_self _ _)
    by_cases h1 : ky = k
    · have h2 : kx ≠ k := fun hcon => hxy (h1.trans hcon.symm)
      simp [lookupF, h1, h2]
    · by_cases h2 : kx = k <;> simp [lookupF, h1, h2]
  | trans h1 h2 ih1 ih2 =>
    intro hn
    have hkp := h1.map (Prod.fst : String × Val → String)
    have hnmid := hkp.nodup_iff.mp hn
    exact (ih1 hn).trans (ih2 hnmid)

theorem keysF_canonFields : ∀ f : Fields, keysF (canonFields f) = keysF f
  | [] => rfl
  | (k, v) :: rest => by
    have ih := keysF_canonFields rest
    simp only [keysF] at ih ⊢
    simp [canonFields, ih]

theorem lookupF_canonFields (k : String) :
    ∀ f : Fields, lookupF k (canonFields f) = (lookupF k f).map canonVal
  | [] => rfl
  | (l1, v) :: rest => by
    by_cases h : l1 = k <;>
      simp [canonFields, lookupF, h, lookupF_canonFields k rest]

theorem sizeOf_lookupF : ∀ (f : Fields) (k : String) (v : Val),
    lookupF k f = some v → sizeOf v < sizeOf f
  | [], k, v => by simp [lookupF]
  | (l1, w) :: rest, k, v => by
    by_cases h : l1 = k
    · rw [lookupF, if_pos h]
      intro hv
      injection hv with hv
      subst hv
      simp only [List.cons.sizeOf_spec, Prod.mk.sizeOf_spec]
      omega
    · rw [lookupF, if_neg h]
      intro hv
      have := sizeOf_lookupF rest k v hv
      simp only [List.cons.sizeOf_spec]
      omega

theorem wfFields_lookup : ∀ (f : Fields) (k : String) (v : Val),
    wfFields f = true → lookupF k f = some v → wfVal v = true
  | [], k, v => by simp [lookupF]
  | (l1, w) :: rest, k, v => by
    intro hwf hv
    rw [wfFields, Bool.and_eq_true] at hwf
    by_cases h : l1 = k
    · rw [lookupF, if_pos h] at hv
      injection hv with hv
      subst hv
      exact hwf.1
    · rw [lookupF, if_neg h] at hv
      exact wfFields_lookup rest k v hwf.2 hv

theorem nodupKeysF_iff : ∀ f : Fields, nodupKeysF f = true ↔ (keysF f).Nodup
  | [] => by simp [nodupKeysF, keysF]
  | (k, v) :: rest => by
    have hhead : ((!(lookupF k rest).isSome) = true) ↔ k ∉ keysF rest := by
      rw [← lookupF_none_iff k rest]
      cases lookupF k rest <;> simp
    rw [nodupKeysF, Bool.and_eq_true, nodupKeysF_iff rest, hhead]
    simp [keysF, List.nodup_cons]

/-- Keys present on the left of `structEqF` have structurally equal
counterparts on the right. -/
theorem structEqF_lookup : ∀ (f g : Fields), structEqF f g = true →
    ∀ (k : String) (v : Val), lookupF k f = some v →
    ∃ w, lookupF k g = some w ∧ structEqB v w = true
  | [], g => fun _ k v hl => absurd hl (by simp [lookupF])
  | (k1, v1) :: f2, g => fun hse k v hl => by
    rw [structEqF, Bool.and_eq_true] at hse
    by_cases h : k1 = k
    · rw [lookupF, if_pos h] at hl
      injection hl with hl
      subst hl
      obtain ⟨hmatch, _⟩ := hse
      revert hmatch
      cases hlg : lookupF k1 g with
      | some w =>
        intro hmatch
        exact ⟨w, h ▸ hlg, hmatch⟩
      | none =>
        intro hmatch
        exact absurd hmatch (by simp)
    · rw [lookupF, if_neg h] at hl
      exact structEqF_lookup f2 g hse.2 k v hl

/-- Keys absent on the right of `subKeysB g f` are absent from `g`. -/
theorem subKeysB_none {g f : Fields} (hsub : subKeysB g f = true)
    {k : String} (hf : lookupF k f = none) : lookupF k g = none := by
  cases hg : lookupF k g with
  | none => rfl
  | some w =>
    have hmem := lookupF_mem hg
    have := List.all_eq_true.mp hsub (k, w) hmem
    rw [hf] at this
    exact absurd this (by simp)

/-- Two strictly keyed, key-sorted property lists with the same lookup
function are equal. -/
theorem sorted_lookup_ext : ∀ f g : Fields, sortedByKey f → sortedByKey g →
    (keysF f).Nodup → (keysF g).Nodup →
    (∀ k, lookupF k f = lookupF k g) → f = g
  | [], [] => fun _ _ _ _ _ => rfl
  | [], (k2, w2) :: g2 => fun _ _ _ _ hpt => by
    have h := hpt k2
    simp [lookupF] at h
  | (k1, v1) :: f2, [] => fun _ _ _ _ hpt => by
    have h := hpt k1
    simp [lookupF] at h
  | (k1, v1) :: f2, (k2, w2) :: g2 => fun hsf hsg hnf hng hpt => by
    have hpf := List.pairwise_cons.mp hsf
    have hpg := List.pairwise_cons.mp hsg
    simp only [keysF, List.map_cons, List.nodup_cons] at hnf hng
    have hk12 : k1 = k2 := by
      by_contra hne
      have hl1 : lookupF k1 ((k2, w2) :: g2) = some v1 := by
        rw [← hpt k1, lookupF, if_pos rfl]
      rw [lookupF, if_neg (fun hcon : k2 = k1 => hne hcon.symm)] at hl1
      have hk1g2 : k1 ∈ keysF g2 := lookupF_mem_keys hl1
      obtain ⟨⟨ka, va⟩, hmema, hka⟩ := List.mem_map.mp hk1g2
      have hle21 : keyLe k2 k1 = true := by
        have := hpg.1 (ka, va) hmema
        rwa [hka] at this
      have hl2 : lookupF k2 ((k1, v1) :: f2) = some w2 := by
        rw [hpt k2, lookupF, if_pos rfl]
      rw [lookupF, if_neg hne] at hl2
      have hk2f2 : k2 ∈ keysF f2 := lookupF_mem_keys hl2
      obtain ⟨⟨kb, vb⟩, hmemb, hkb⟩ := List.mem_map.mp hk2f2
      have hle12 : keyLe k1 k2 = true := by
        have := hpf.1 (kb, vb) hmemb
        rwa [hkb] at this
      exact hne (keyLe_antisymm hle12 hle21)
    subst hk12
    have hv : v1 = w2 := by
      have h := hpt k1
      rw [lookupF, if_pos rfl, lookupF, if_pos rfl] at h
      exact Option.some.inj h
    subst hv
    have htail : f2 = g2 := by
      refine sorted_lookup_ext f2 g2 hpf.2 hpg.2 hnf.2 hng.2 ?_
      intro k
      by_cases hk : k = k1
      · subst hk
        rw [(lookupF_none_iff k f2).mpr (by simpa [keysF] using hnf.1),
          (lookupF_none_iff k g2).mpr (by simpa [keysF] using hng.1)]
      · have h := hpt k
        rwa [lookupF, if_neg (fun hcon : k1 = k => hk hcon.symm), lookupF,
          if_neg (fun hcon : k1 = k => hk hcon.symm)] at h
    rw [htail]

/-- Structurally equal well-formed values have the same canonical
(key-sorted) form — by strong induction on the size of the left
value. -/
theorem canonVal_structEq : ∀ (n : Nat) (a b : Val), sizeOf a ≤ n →
    wfVal a = true → wfVal b = true → structEqB a b = true →
    canonVal a = canonVal b := by
  intro n
  induction n with
  | zero =>
    intro a b hsz
    exact absurd hsz (by cases a <;> simp)
  | succ n ih =>
    intro a b hsz hwa hwb hse
    cases a with
    | vNull =>
      have hab : Val.vNull = b := (Val.beq_iff _ b).mp hse
      rw [← hab]
    | vBool b2 =>
      have hab : Val.vBool b2 = b := (Val.beq_iff _ b).mp hse
      rw [← hab]
    | vInt n2 =>
      have hab : Val.vInt n2 = b := (Val.beq_iff _ b).mp hse
      rw [← hab]
    | vStr s2 =>
      have hab : Val.vStr s2 = b := (Val.beq_iff _ b).mp hse
      rw [← hab]
    | vObj f =>
      cases b with
      | vNull =>
        have hfalse : Val.beq (Val.vObj f) Val.vNull = true := hse
        simp [Val.beq] at hfalse
      | vBool b2 =>
        have hfalse : Val.beq (Val.vObj f) (Val.vBool b2) = true := hse
        simp [Val.beq] at hfalse
      | vInt n2 =>
        have hfalse : Val.beq (Val.vObj f) (Val.vInt n2) = true := hse
        simp [Val.beq] at hfalse
      | vStr s2 =>
        have hfalse : Val.beq (Val.vObj f) (Val.vStr s2) = true := hse
        simp [Val.beq] at hfalse
      | vObj g =>
        rw [structEqB, Bool.and_eq_true] at hse
        rw [wfVal, Bool.and_eq_true] at hwa hwb
        rw [canonVal, canonVal]
        congr 1
        have hnf : (keysF (canonFields f)).Nodup := by
          rw [keysF_canonFields]
          exact (nodupKeysF_iff f).mp hwa.1
        have hng : (keysF (canonFields g)).Nodup := by
          rw [keysF_canonFields]
          exact (nodupKeysF_iff g).mp hwb.1
        have hnsf : (keysF (sortByKey (canonFields f))).Nodup :=
          (((sortByKey_perm (canonFields f)).map
            (Prod.fst : String × Val → String)).nodup_iff).mpr hnf
        have hnsg : (keysF (sortByKey (canonFields g))).Nodup :=
          (((sortByKey_perm (canonFields g)).map
            (Prod.fst : String × Val → String)).nodup_iff).mpr hng
        refine sorted_lookup_ext _ _ (sortByKey_sorted _) (sortByKey_sorted _)
          hnsf hnsg ?_
        intro k
        rw [lookupF_perm k (sortByKey_perm (canonFields f)) hnsf,
          lookupF_perm k (sortByKey_perm (canonFields g)) hnsg,
          lookupF_canonFields, lookupF_canonFields]
        cases hlf : lookupF k f with
        | some v =>
          obtain ⟨w, hlg, hsevw⟩ := structEqF_lookup f g hse.1 k v hlf
          rw [hlg]
          have hszv : sizeOf v ≤ n := by
            have h1 := sizeOf_lookupF f k v hlf
            have h2 : sizeOf (Val.vObj f) ≤ n + 1 := hsz
            simp only [Val.vObj.sizeOf_spec] at h2
            omega
          have hcvw := ih v w hszv (wfFields_lookup f k v hwa.2 hlf)
            (wfFields_lookup g k w hwb.2 hlg) hsevw
          simp [hcvw]
        | none =>
          rw [subKeysB_none hse.2 hlf]

/-- C6: `getHash` is deterministic — it is a pure function of the
entire current state — and insensitive to key insertion order: any two
well-formed states that are structurally equal as finite maps (at every
depth) hash identically, because `object-hash` serializes mappings with
their keys sorted. -/
theorem claim_C6 :
    (∀ s : Fields, getHash s = getHash s) ∧
    (∀ s1 s2 : Fields, wfState s1 = true → wfState s2 = true →
      structEqB (.vObj s1) (.vObj s2) = true → getHash s1 = getHash s2) := by
  refine ⟨fun s => rfl, fun s1 s2 hw1 hw2 hse => ?_⟩
  have hw1b : wfVal (Val.vObj s1) = true := hw1
  have hw2b : wfVal (Val.vObj s2) = true := hw2
  exact congrArg encodeVal
    (canonVal_structEq (sizeOf (Val.vObj s1)) (.vObj s1) (.vObj s2) le_rfl
      hw1b hw2b hse)

/-! ### Diff soundness (claim C1): the emitted diff never carries an
unchanged path -/

theorem getPath_cons (f : Fields) (k : String) (q : List String) :
    getPath (.vObj f) (k :: q) =
      (match lookupF k f with
        | some w => getPath w q
        | none => none) := rfl

theorem getPath_scalar_none {v : Val} (hv : v.isObjB = false) (k : String)
    (q : List String) : getPath v (k :: q) = none := by
  cases v with
  | vObj f => simp [Val.isObjB] at hv
  | vNull => rfl
  | vBool b => rfl
  | vInt n => rfl
  | vStr s => rfl

/-- Leaves of `addedDiff` sit at paths that are absent from the left
operand. -/
theorem addedDiff_sound : ∀ (rf lf : Fields) (k : String) (q : List String)
    (v : Val), getPath (.vObj (addedDiffFields lf rf)) (k :: q) = some v →
    v.isLeafB = true → getPath (.vObj lf) (k :: q) = none
  | [], lf, k, q, v => by
    intro hget _
    simp only [addedDiffFields, getPath_cons, lookupF] at hget
    exact Option.noConfusion hget
  | (k0, rv) :: rest, lf, k, q, v => by
    intro hget hleaf
    cases hl0 : lookupF k0 lf with
    | some lv =>
      cases hd : addedDiff lv rv with
      | nil =>
        simp only [addedDiffFields, hl0, hd] at hget
        exact addedDiff_sound rest lf k q v hget hleaf
      | cons d0 ds =>
        simp only [addedDiffFields, hl0, hd] at hget
        rw [getPath_cons] at hget
        by_cases hk : k0 = k
        · subst hk
          rw [lookupF, if_pos rfl] at hget
          cases q with
          | nil =>
            have hv : Val.vObj (d0 :: ds) = v := Option.some.inj hget
            rw [← hv] at hleaf
            simp [Val.isLeafB] at hleaf
          | cons k1 q1 =>
            cases lv with
            | vObj lfv =>
              cases rv with
              | vObj rfv =>
                have hd2 : addedDiffFields lfv rfv = d0 :: ds := hd
                rw [← hd2] at hget
                have hrec := addedDiff_sound rfv lfv k1 q1 v hget hleaf
                simp only [getPath_cons, hl0, hrec]
              | vNull => exact absurd hd (by simp [addedDiff])
              | vBool b => exact absurd hd (by simp [addedDiff])
              | vInt n => exact absurd hd (by simp [addedDiff])
              | vStr s => exact absurd hd (by simp [addedDiff])
            | vNull => exact absurd hd (by simp [addedDiff])
            | vBool b => exact absurd hd (by simp [addedDiff])
            | vInt n => exact absurd hd (by simp [addedDiff])
            | vStr s => exact absurd hd (by simp [addedDiff])
        · rw [lookupF, if_neg hk, ← getPath_cons] at hget
          exact addedDiff_sound rest lf k q v hget hleaf
    | none =>
      by_cases hk : k0 = k
      · subst hk
        simp only [getPath_cons, hl0]
      · simp only [addedDiffFields, hl0] at hget
        rw [getPath_cons, lookupF, if_neg hk, ← getPath_cons] at hget
        exact addedDiff_sound rest lf k q v hget hleaf

/-- The empty path reads the value itself. -/
theorem getPath_nil (v : Val) : getPath v [] = some v := by
  cases v <;> rfl

/-- `updatedDiff` with a non-mapping left operand: reference equality
(equal primitives) gives `{}`, otherwise the right operand is returned
wholesale — either way its leaves differ from the left operand. -/
theorem updatedDiff_scalar_sound (lv rv : Val) (hlo : lv.isObjB = false)
    (p : List String) (v : Val)
    (hget : getPath (updatedDiff lv rv) p = some v) :
    getPath lv p ≠ some v := by
  have hd : updatedDiff lv rv = if lv == rv then Val.vObj [] else rv := by
    cases lv with
    | vObj f => simp [Val.isObjB] at hlo
    | vNull => cases rv <;> rfl
    | vBool b => cases rv <;> rfl
    | vInt n => cases rv <;> rfl
    | vStr s => cases rv <;> rfl
  rw [hd] at hget
  by_cases heq : (lv == rv) = true
  · rw [if_pos heq] at hget
    cases p with
    | nil =>
      intro hcon
      rw [getPath_nil] at hcon
      have h1 := Option.some.inj hget
      have h2 := Option.some.inj hcon
      rw [← h1] at h2
      rw [h2] at hlo
      simp [Val.isObjB] at hlo
    | cons k q =>
      intro _
      simp only [getPath_cons, lookupF] at hget
      exact Option.noConfusion hget
  · rw [if_neg heq] at hget
    have hne : lv ≠ rv := fun hcon => heq ((Val.beq_iff lv rv).mpr hcon)
    cases p with
    | nil =>
      intro hcon
      rw [getPath_nil] at hget
      rw [getPath_nil] at hcon
      have h1 := Option.some.inj hget
      have h2 := Option.some.inj hcon
      exact hne (h2.trans h1.symm)
    | cons k q =>
      rw [getPath_scalar_none hlo k q]
      exact fun hcon => Option.noConfusion hcon

/-- `updatedDiff` of a mapping and a non-mapping returns the right
operand wholesale; its leaves differ from the mapping. -/
theorem updatedDiff_obj_scalar_sound (lfv : Fields) (rv : Val)
    (hro : rv.isObjB = false) (p : List String) (v : Val)
    (hget : getPath (updatedDiff (.vObj lfv) rv) p = some v) :
    getPath (.vObj lfv) p ≠ some v := by
  have hd : updatedDiff (.vObj lfv) rv = rv := by
    cases rv with
    | vObj f => simp [Val.isObjB] at hro
    | vNull => rfl
    | vBool b => rfl
    | vInt n => rfl
    | vStr s => rfl
  rw [hd] at hget
  cases p with
  | nil =>
    intro hcon
    rw [getPath_nil] at hget
    rw [getPath_nil] at hcon
    have h1 := Option.some.inj hget
    have h2 := Option.some.inj hcon
    have h3 : rv = Val.vObj lfv := h1.trans h2.symm
    rw [h3] at hro
    simp [Val.isObjB] at hro
  | cons k q =>
    intro _
    rw [getPath_scalar_none hro k q] at hget
    exact Option.noConfusion hget

mutual

/-- Leaves of `updatedDiff`'s key fold differ from the left operand:
the diff never records a path whose value is unchanged. -/
theorem updatedDiffFields_sound : ∀ (rf lf : Fields) (k : String)
    (q : List String) (v : Val),
    getPath (.vObj (updatedDiffFields lf rf)) (k :: q) = some v →
    v.isLeafB = true → getPath (.vObj lf) (k :: q) ≠ some v
  | [], lf, k, q, v => by
    intro hget _
    simp only [updatedDiffFields, getPath_cons, lookupF] at hget
    exact Option.noConfusion hget
  | (k0, rv) :: rest, lf, k, q, v => by
    intro hget hleaf
    cases hl0 : lookupF k0 lf with
    | none =>
      simp only [updatedDiffFields, hl0] at hget
      exact updatedDiffFields_sound rest lf k q v hget hleaf
    | some lv =>
      by_cases hguard : ((updatedDiff lv rv).isEmptyObjB &&
          (lv.isEmptyObjB || !rv.isEmptyObjB)) = true
      · simp only [updatedDiffFields, hl0, if_pos hguard] at hget
        exact updatedDiffFields_sound rest lf k q v hget hleaf
      · simp only [updatedDiffFields, hl0, if_neg hguard] at hget
        rw [getPath_cons] at hget
        by_cases hk : k0 = k
        · subst hk
          rw [lookupF, if_pos rfl] at hget
          have hcond : (updatedDiff lv rv).isEmptyObjB = false ∨
              (lv.isEmptyObjB = false ∧ rv.isEmptyObjB = true) := by
            cases hA : (updatedDiff lv rv).isEmptyObjB with
            | false => exact Or.inl rfl
            | true =>
              cases hB : lv.isEmptyObjB with
              | true => exact absurd (by rw [hA, hB]; rfl) hguard
              | false =>
                cases hC : rv.isEmptyObjB with
                | true => exact Or.inr ⟨rfl, rfl⟩
                | false => exact absurd (by rw [hA, hB, hC]; rfl) hguard
          intro hcon
          simp only [getPath_cons, hl0] at hcon
          exact updatedDiff_sound_val rv lv q v hcond hget hleaf hcon
        · rw [lookupF, if_neg hk, ← getPath_cons] at hget
          exact updatedDiffFields_sound rest lf k q v hget hleaf

/-- The value-level soundness of a recorded `updatedDiff` entry (the
hypothesis is the negation of the fold's skip guard). -/
theorem updatedDiff_sound_val : ∀ (rv lv : Val) (p : List String) (v : Val),
    ((updatedDiff lv rv).isEmptyObjB = false ∨
      (lv.isEmptyObjB = false ∧ rv.isEmptyObjB = true)) →
    getPath (updatedDiff lv rv) p = some v → v.isLeafB = true →
    getPath lv p ≠ some v
  | rv, lv, p, v => by
    intro hcond hget hleaf
    cases lv with
    | vObj lfv =>
      cases rv with
      | vObj rfv =>
        cases p with
        | nil =>
          have hv : Val.vObj (updatedDiffFields lfv rfv) = v :=
            Option.some.inj hget
          have hfe : updatedDiffFields lfv rfv = [] := by
            cases hf : updatedDiffFields lfv rfv with
            | nil => rfl
            | cons a b =>
              rw [← hv, hf] at hleaf
              simp [Val.isLeafB] at hleaf
          have hv2 : v = Val.vObj [] := by rw [← hv, hfe]
          rcases hcond with h1 | h2
          · have hT : (updatedDiff (Val.vObj lfv) (Val.vObj rfv)).isEmptyObjB = true := by
              show (Val.vObj (updatedDiffFields lfv rfv)).isEmptyObjB = true
              rw [hfe]
              rfl
            rw [hT] at h1
            exact absurd h1 (by simp)
          · intro hcon
            have h3 := Option.some.inj hcon
            rw [hv2] at h3
            have h4 : lfv = [] := by injection h3
            rw [h4] at h2
            simp [Val.isEmptyObjB] at h2
        | cons k1 q1 =>
          intro hcon
          have hget2 : getPath (.vObj (updatedDiffFields lfv rfv)) (k1 :: q1) = some v := hget
          have hcon2 : getPath (.vObj lfv) (k1 :: q1) = some v := hcon
          exact updatedDiffFields_sound rfv lfv k1 q1 v hget2 hleaf hcon2
      | vNull => exact updatedDiff_obj_scalar_sound lfv Val.vNull rfl p v hget
      | vBool b => exact updatedDiff_obj_scalar_sound lfv (Val.vBool b) rfl p v hget
      | vInt n => exact updatedDiff_obj_scalar_sound lfv (Val.vInt n) rfl p v hget
      | vStr s => exact updatedDiff_obj_scalar_sound lfv (Val.vStr s) rfl p v hget
    | vNull => exact updatedDiff_scalar_sound Val.vNull rv rfl p v hget
    | vBool b => exact updatedDiff_scalar_sound (Val.vBool b) rv rfl p v hget
    | vInt n => exact updatedDiff_scalar_sound (Val.vInt n) rv rfl p v hget
    | vStr s => exact updatedDiff_scalar_sound (Val.vStr s) rv rfl p v hget

end

/-- `lookupF` after `upsertF`: the upserted key reads the new value,
every other key is untouched. -/
theorem lookupF_upsertF (k k0 : String) (nv : Val) :
    ∀ acc : Fields, lookupF k (upsertF acc k0 nv) =
      if k0 = k then some nv else lookupF k acc
  | [] => rfl
  | (l, w) :: f => by
    by_cases hl : l = k0
    · subst hl
      simp only [upsertF, if_pos rfl, lookupF]
      by_cases hk : l = k
      · simp only [if_pos hk]
      · simp only [if_neg hk]
    · simp only [upsertF, if_neg hl, lookupF]
      by_cases hk : l = k
      · rw [if_pos hk, if_neg (fun hc => hl (hk.trans hc.symm)), if_pos hk]
      · rw [if_neg hk, lookupF_upsertF k k0 nv f, if_neg hk]

/-- Splitting the duplicate-freeness of a non-empty property list. -/
theorem nodup_cons_split {k0 : String} {v0 : Val} {rest : Fields}
    (h : nodupKeysF ((k0, v0) :: rest) = true) :
    lookupF k0 rest = none ∧ nodupKeysF rest = true := by
  simp only [nodupKeysF, Bool.and_eq_true, Bool.not_eq_true'] at h
  refine ⟨?_, h.2⟩
  cases hx : lookupF k0 rest with
  | none => rfl
  | some y =>
    rw [hx] at h
    exact Bool.noConfusion h.1

/-- `upsertF` never returns the empty list. -/
theorem upsertF_ne_nil (acc : Fields) (k : String) (v : Val) :
    upsertF acc k v ≠ [] := by
  cases acc with
  | nil => exact fun hcon => List.noConfusion hcon
  | cons a f =>
    obtain ⟨l, w⟩ := a
    by_cases hl : l = k
    · simp only [upsertF, if_pos hl]
      exact fun hcon => List.noConfusion hcon
    · simp only [upsertF, if_neg hl]
      exact fun hcon => List.noConfusion hcon

/-- `mergeFields` returns the empty list only from empty inputs. -/
theorem mergeFields_nil : ∀ (sf : Fields) (t : Val) (acc : Fields),
    mergeFields t acc sf = [] → acc = [] ∧ sf = []
  | [], t, acc => by
    intro h
    exact ⟨h, rfl⟩
  | (k, sv) :: rest, t, acc => by
    intro h
    rw [mergeFields_cons] at h
    have h2 := mergeFields_nil rest t (upsertF acc k (mergeEntry t k sv)) h
    exact absurd h2.1 (upsertF_ne_nil acc k (mergeEntry t k sv))

/-- The key-by-key reading of `mergeObject`: on a duplicate-free source,
a key merged in reads as `mergeEntry` of its source value, and any other
key reads from the accumulator. -/
theorem lookupF_mergeFields : ∀ (sf : Fields) (t : Val) (acc : Fields)
    (k : String), nodupKeysF sf = true →
    lookupF k (mergeFields t acc sf) =
      (match lookupF k sf with
        | some sv => some (mergeEntry t k sv)
        | none => lookupF k acc)
  | [], t, acc, k => by
    intro _
    rfl
  | (k0, sv0) :: rest, t, acc, k => by
    intro hnd0
    have hnd := nodup_cons_split hnd0
    rw [mergeFields_cons,
      lookupF_mergeFields rest t (upsertF acc k0 (mergeEntry t k0 sv0)) k hnd.2]
    by_cases hk : k0 = k
    · subst hk
      have hr : lookupF k0 ((k0, sv0) :: rest) = some sv0 := by
        rw [lookupF, if_pos rfl]
      simp only [hnd.1, hr]
      rw [lookupF_upsertF, if_pos rfl]
    · simp only [lookupF, if_neg hk]
      cases hr : lookupF k rest with
      | some sv => rfl
      | none =>
        rw [lookupF_upsertF, if_neg hk]

/-- A property read out of `updatedDiff`'s key fold over a duplicate-free
update comes from a key present on both sides whose recorded difference
passed the skip guard. -/
theorem lookupF_updatedDiffFields : ∀ (rf lf : Fields) (k : String) (sv : Val),
    nodupKeysF rf = true →
    lookupF k (updatedDiffFields lf rf) = some sv →
    ∃ lv rv, lookupF k lf = some lv ∧ lookupF k rf = some rv ∧
      sv = updatedDiff lv rv ∧
      ((updatedDiff lv rv).isEmptyObjB = false ∨
        (lv.isEmptyObjB = false ∧ rv.isEmptyObjB = true))
  | [], lf, k, sv => by
    intro _ hl
    exact Option.noConfusion hl
  | (k0, rv0) :: rest, lf, k, sv => by
    intro hnd0 hl
    have hnd := nodup_cons_split hnd0
    cases hl0 : lookupF k0 lf with
    | none =>
      simp only [updatedDiffFields, hl0] at hl
      obtain ⟨lv, rv, h1, h2, h3, h4⟩ :=
        lookupF_updatedDiffFields rest lf k sv hnd.2 hl
      refine ⟨lv, rv, h1, ?_, h3, h4⟩
      have hne : k0 ≠ k := by
        intro hcon
        subst hcon
        rw [hnd.1] at h2
        exact Option.noConfusion h2
      simp only [lookupF, if_neg hne]
      exact h2
    | some lv0 =>
      by_cases hguard : ((updatedDiff lv0 rv0).isEmptyObjB &&
          (lv0.isEmptyObjB || !rv0.isEmptyObjB)) = true
      · simp only [updatedDiffFields, hl0, if_pos hguard] at hl
        obtain ⟨lv, rv, h1, h2, h3, h4⟩ :=
          lookupF_updatedDiffFields rest lf k sv hnd.2 hl
        refine ⟨lv, rv, h1, ?_, h3, h4⟩
        have hne : k0 ≠ k := by
          intro hcon
          subst hcon
          rw [hnd.1] at h2
          exact Option.noConfusion h2
        simp only [lookupF, if_neg hne]
        exact h2
      · simp only [updatedDiffFields, hl0, if_neg hguard] at hl
        rw [lookupF] at hl
        by_cases hk : k0 = k
        · subst hk
          rw [if_pos rfl] at hl
          have hsv : sv = updatedDiff lv0 rv0 := (Option.some.inj hl).symm
          have hcond : (updatedDiff lv0 rv0).isEmptyObjB = false ∨
              (lv0.isEmptyObjB = false ∧ rv0.isEmptyObjB = true) := by
            cases hA : (updatedDiff lv0 rv0).isEmptyObjB with
            | false => exact Or.inl rfl
            | true =>
              cases hB : lv0.isEmptyObjB with
              | true => exact absurd (by rw [hA, hB]; rfl) hguard
              | false =>
                cases hC : rv0.isEmptyObjB with
                | true => exact Or.inr ⟨rfl, rfl⟩
                | false => exact absurd (by rw [hA, hB, hC]; rfl) hguard
          exact ⟨lv0, rv0, hl0, by rw [lookupF, if_pos rfl], hsv, hcond⟩
        · rw [if_neg hk] at hl
          obtain ⟨lv, rv, h1, h2, h3, h4⟩ :=
            lookupF_updatedDiffFields rest lf k sv hnd.2 hl
          refine ⟨lv, rv, h1, ?_, h3, h4⟩
          simp only [lookupF, if_neg hk]
          exact h2

/-- A key absent from the right operand is absent from `updatedDiff`'s
key fold. -/
theorem lookupF_updatedDiffFields_none : ∀ (rf lf : Fields) (k : String),
    lookupF k rf = none → lookupF k (updatedDiffFields lf rf) = none
  | [], lf, k => by
    intro _
    rfl
  | (k0, rv0) :: rest, lf, k => by
    intro hnone
    rw [lookupF] at hnone
    by_cases hk : k0 = k
    · rw [if_pos hk] at hnone
      exact Option.noConfusion hnone
    · rw [if_neg hk] at hnone
      cases hl0 : lookupF k0 lf with
      | none =>
        simp only [updatedDiffFields, hl0]
        exact lookupF_updatedDiffFields_none rest lf k hnone
      | some lv0 =>
        by_cases hguard : ((updatedDiff lv0 rv0).isEmptyObjB &&
            (lv0.isEmptyObjB || !rv0.isEmptyObjB)) = true
        · simp only [updatedDiffFields, hl0, if_pos hguard]
          exact lookupF_updatedDiffFields_none rest lf k hnone
        · simp only [updatedDiffFields, hl0, if_neg hguard, lookupF,
            if_neg hk]
          exact lookupF_updatedDiffFields_none rest lf k hnone

/-- `updatedDiff` outside the mapping-mapping arm is the reference
equality test. -/
theorem updatedDiff_ite (lv rv : Val)
    (h : lv.isObjB = false ∨ rv.isObjB = false) :
    updatedDiff lv rv = if lv == rv then Val.vObj [] else rv := by
  cases lv <;> cases rv <;> first
    | rfl
    | simp [Val.isObjB] at h

mutual

/-- `updatedDiff` of a well-formed right operand is well-formed
(duplicate-free at all depths). -/
theorem wf_updatedDiff : ∀ (rv lv : Val), wfVal rv = true →
    wfVal (updatedDiff lv rv) = true
  | .vObj rfv, .vObj lfv => by
    intro hr
    have hd : updatedDiff (Val.vObj lfv) (Val.vObj rfv) =
        Val.vObj (updatedDiffFields lfv rfv) := rfl
    rw [hd]
    simp only [wfVal, Bool.and_eq_true] at hr ⊢
    exact wf_updatedDiffFields rfv lfv hr.1 hr.2
  | .vObj rfv, .vNull => fun hr => hr
  | .vObj rfv, .vBool b => fun hr => hr
  | .vObj rfv, .vInt n => fun hr => hr
  | .vObj rfv, .vStr s => fun hr => hr
  | .vNull, lv => by
    intro hr
    rw [updatedDiff_ite lv Val.vNull (Or.inr rfl)]
    by_cases h : (lv == Val.vNull) = true
    · rw [if_pos h]
      rfl
    · rw [if_neg h]
      exact hr
  | .vBool b, lv => by
    intro hr
    rw [updatedDiff_ite lv (Val.vBool b) (Or.inr rfl)]
    by_cases h : (lv == Val.vBool b) = true
    · rw [if_pos h]
      rfl
    · rw [if_neg h]
      exact hr
  | .vInt n, lv => by
    intro hr
    rw [updatedDiff_ite lv (Val.vInt n) (Or.inr rfl)]
    by_cases h : (lv == Val.vInt n) = true
    · rw [if_pos h]
      rfl
    · rw [if_neg h]
      exact hr
  | .vStr s, lv => by
    intro hr
    rw [updatedDiff_ite lv (Val.vStr s) (Or.inr rfl)]
    by_cases h : (lv == Val.vStr s) = true
    · rw [if_pos h]
      rfl
    · rw [if_neg h]
      exact hr

/-- `updatedDiff`'s key fold over a well-formed right operand is
well-formed. -/
theorem wf_updatedDiffFields : ∀ (rf lf : Fields), nodupKeysF rf = true →
    wfFields rf = true →
    nodupKeysF (updatedDiffFields lf rf) = true ∧
      wfFields (updatedDiffFields lf rf) = true
  | [], lf => by
    intro _ _
    exact ⟨rfl, rfl⟩
  | (k0, rv0) :: rest, lf => by
    intro hnd0 hwf0
    have hnd := nodup_cons_split hnd0
    simp only [wfFields, Bool.and_eq_true] at hwf0
    have ih := wf_updatedDiffFields rest lf hnd.2 hwf0.2
    cases hl0 : lookupF k0 lf with
    | none =>
      simp only [updatedDiffFields, hl0]
      exact ih
    | some lv0 =>
      by_cases hguard : ((updatedDiff lv0 rv0).isEmptyObjB &&
          (lv0.isEmptyObjB || !rv0.isEmptyObjB)) = true
      · simp only [updatedDiffFields, hl0, if_pos hguard]
        exact ih
      · simp only [updatedDiffFields, hl0, if_neg hguard]
        constructor
        · simp only [nodupKeysF, Bool.and_eq_true, Bool.not_eq_true']
          constructor
          · rw [lookupF_updatedDiffFields_none rest lf k0 hnd.1]
            rfl
          · exact ih.1
        · simp only [wfFields, Bool.and_eq_true]
          exact ⟨wf_updatedDiff rv0 lv0 hwf0.1, ih.2⟩

end

/-- Leaf decomposition of `deepMerge` (strong induction on the size of
the source properties): every leaf of the merge reads back from the
target or from the source. -/
theorem deepMerge_leaf_aux : ∀ (n : Nat) (sf : Fields) (t : Val)
    (p : List String) (v : Val), sizeOf sf ≤ n →
    wfVal (.vObj sf) = true →
    getPath (deepMerge t (.vObj sf)) p = some v → v.isLeafB = true →
    getPath t p = some v ∨ getPath (.vObj sf) p = some v := by
  intro n
  induction n with
  | zero =>
    intro sf t p v hsz
    exfalso
    cases sf with
    | nil => exact absurd hsz (by decide)
    | cons a l =>
      simp only [List.cons.sizeOf_spec] at hsz
      omega
  | succ m ih =>
    intro sf t p v hsz hwf hget hleaf
    have hw : nodupKeysF sf = true ∧ wfFields sf = true := by
      rw [wfVal, Bool.and_eq_true] at hwf
      exact hwf
    cases p with
    | nil =>
      have hv : Val.vObj (mergeFields t (deepMergeBase t) sf) = v :=
        Option.some.inj hget
      have hme : mergeFields t (deepMergeBase t) sf = [] := by
        cases hm : mergeFields t (deepMergeBase t) sf with
        | nil => rfl
        | cons a l =>
          rw [← hv, hm] at hleaf
          simp [Val.isLeafB] at hleaf
      obtain ⟨hbase, hsf⟩ := mergeFields_nil sf t (deepMergeBase t) hme
      subst hsf
      right
      rw [getPath_nil, ← hv, hme]
    | cons k q =>
      have hget2 : getPath (.vObj (mergeFields t (deepMergeBase t) sf))
          (k :: q) = some v := hget
      rw [getPath_cons] at hget2
      rw [lookupF_mergeFields sf t (deepMergeBase t) k hw.1] at hget2
      cases hsf : lookupF k sf with
      | none =>
        simp only [hsf] at hget2
        cases hbl : lookupF k (deepMergeBase t) with
        | none =>
          simp only [hbl] at hget2
          exact Option.noConfusion hget2
        | some w =>
          simp only [hbl] at hget2
          cases t with
          | vObj tf =>
            left
            rw [getPath_cons]
            have hbl2 : lookupF k tf = some w := hbl
            simp only [hbl2]
            exact hget2
          | vNull => simp [deepMergeBase, lookupF] at hbl
          | vBool b => simp [deepMergeBase, lookupF] at hbl
          | vInt n2 => simp [deepMergeBase, lookupF] at hbl
          | vStr s => simp [deepMergeBase, lookupF] at hbl
      | some sv =>
        simp only [hsf] at hget2
        cases t with
        | vObj tf =>
          cases htv : lookupF k tf with
          | none =>
            have hm : mergeEntry (Val.vObj tf) k sv = sv := by
              simp only [mergeEntry, htv]
            rw [hm] at hget2
            right
            rw [getPath_cons]
            simp only [hsf]
            exact hget2
          | some tv =>
            by_cases hso : sv.isObjB = true
            · cases sv with
              | vObj svf =>
                have hm : mergeEntry (Val.vObj tf) k (Val.vObj svf) =
                    deepMerge tv (Val.vObj svf) := by
                  simp only [mergeEntry, htv]
                  rw [if_pos (show (Val.vObj svf).isObjB = true from rfl)]
                rw [hm] at hget2
                have hs1 := sizeOf_lookupF sf k (Val.vObj svf) hsf
                have hs2 : sizeOf svf ≤ m := by
                  rw [Val.vObj.sizeOf_spec] at hs1
                  omega
                have hwsv : wfVal (Val.vObj svf) = true :=
                  wfFields_lookup sf k (Val.vObj svf) hw.2 hsf
                cases ih svf tv q v hs2 hwsv hget2 hleaf with
                | inl h =>
                  left
                  rw [getPath_cons]
                  simp only [htv]
                  exact h
                | inr h =>
                  right
                  rw [getPath_cons]
                  simp only [hsf]
                  exact h
              | vNull => simp [Val.isObjB] at hso
              | vBool b => simp [Val.isObjB] at hso
              | vInt n2 => simp [Val.isObjB] at hso
              | vStr s => simp [Val.isObjB] at hso
            · have hm : mergeEntry (Val.vObj tf) k sv = sv := by
                simp only [mergeEntry, htv]
                rw [if_neg hso]
              rw [hm] at hget2
              right
              rw [getPath_cons]
              simp only [hsf]
              exact hget2
        | vNull =>
          right
          rw [getPath_cons]
          simp only [hsf]
          exact hget2
        | vBool b =>
          right
          rw [getPath_cons]
          simp only [hsf]
          exact hget2
        | vInt n2 =>
          right
          rw [getPath_cons]
          simp only [hsf]
          exact hget2
        | vStr s =>
          right
          rw [getPath_cons]
          simp only [hsf]
          exact hget2

/-- Leaf decomposition of `deepMerge`, at the size of the source. -/
theorem deepMerge_leaf (sf : Fields) (t : Val) (p : List String) (v : Val)
    (hwf : wfVal (.vObj sf) = true)
    (hget : getPath (deepMerge t (.vObj sf)) p = some v)
    (hleaf : v.isLeafB = true) :
    getPath t p = some v ∨ getPath (.vObj sf) p = some v :=
  deepMerge_leaf_aux (sizeOf sf) sf t p v (Nat.le_refl _) hwf hget hleaf

/-- The diff payload never carries an unchanged path: every leaf of
`diffedUpdatedState` reads back differently from the prior state (or
not at all). -/
theorem diffedUpdatedState_sound (s u : Fields)
    (hu : wfState u = true) (k : String) (q : List String) (v : Val)
    (hget : getPath (.vObj (diffedUpdatedState s u)) (k :: q) = some v)
    (hleaf : v.isLeafB = true) :
    getPath (.vObj s) (k :: q) ≠ some v := by
  simp only [wfState, Bool.and_eq_true] at hu
  have hU := wf_updatedDiffFields u s hu.1 hu.2
  have hget2 : getPath (.vObj (mergeFields (Val.vObj (addedDiffFields s u))
      (addedDiffFields s u) (updatedDiffFields s u))) (k :: q) = some v := hget
  rw [getPath_cons] at hget2
  rw [lookupF_mergeFields (updatedDiffFields s u)
      (Val.vObj (addedDiffFields s u)) (addedDiffFields s u) k hU.1] at hget2
  cases hsk : lookupF k (updatedDiffFields s u) with
  | none =>
    simp only [hsk] at hget2
    cases hak : lookupF k (addedDiffFields s u) with
    | none =>
      simp only [hak] at hget2
      exact Option.noConfusion hget2
    | some w =>
      simp only [hak] at hget2
      have hA : getPath (.vObj (addedDiffFields s u)) (k :: q) = some v := by
        rw [getPath_cons]
        simp only [hak]
        exact hget2
      rw [addedDiff_sound u s k q v hA hleaf]
      exact fun hcon => Option.noConfusion hcon
  | some sv =>
    simp only [hsk] at hget2
    obtain ⟨lv, rv, hlv, hrv, hsv, hcond⟩ :=
      lookupF_updatedDiffFields u s k sv hu.1 hsk
    have hwrv : wfVal rv = true := wfFields_lookup u k rv hu.2 hrv
    have hwsv : wfVal sv = true := by
      rw [hsv]
      exact wf_updatedDiff rv lv hwrv
    have husv : getPath sv q = some v →
        getPath (Val.vObj s) (k :: q) ≠ some v := by
      intro hq hcon
      rw [getPath_cons] at hcon
      simp only [hlv] at hcon
      rw [hsv] at hq
      exact updatedDiff_sound_val rv lv q v hcond hq hleaf hcon
    cases htk : lookupF k (addedDiffFields s u) with
    | none =>
      have hm : mergeEntry (Val.vObj (addedDiffFields s u)) k sv = sv := by
        simp only [mergeEntry, htk]
      rw [hm] at hget2
      exact husv hget2
    | some tv =>
      by_cases hso : sv.isObjB = true
      · cases sv with
        | vObj svf =>
          have hm : mergeEntry (Val.vObj (addedDiffFields s u)) k
              (Val.vObj svf) = deepMerge tv (Val.vObj svf) := by
            simp only [mergeEntry, htk]
            rw [if_pos (show (Val.vObj svf).isObjB = true from rfl)]
          rw [hm] at hget2
          cases deepMerge_leaf svf tv q v hwsv hget2 hleaf with
          | inl h =>
            have hA : getPath (.vObj (addedDiffFields s u)) (k :: q) = some v := by
              rw [getPath_cons]
              simp only [htk]
              exact h
            rw [addedDiff_sound u s k q v hA hleaf]
            exact fun hcon => Option.noConfusion hcon
          | inr h => exact husv h
        | vNull => simp [Val.isObjB] at hso
        | vBool b => simp [Val.isObjB] at hso
        | vInt n => simp [Val.isObjB] at hso
        | vStr s2 => simp [Val.isObjB] at hso
      · have hm : mergeEntry (Val.vObj (addedDiffFields s u)) k sv = sv := by
          simp only [mergeEntry, htk]
          rw [if_neg hso]
        rw [hm] at hget2
        exact husv hget2

/-- C1: when a validated merge-mode `setState` completes (its path-write
loop does not throw), the `EVT_UPDATED` notification fires exactly when
the computed diff — `deepMerge` of `addedDiff(state, update)` with
`updatedDiff(state, update)` — is non-empty, its payload is exactly that
diff, and the payload never contains a path whose value is unchanged:
every leaf of the diff differs from what the prior state holds at that
path. -/
theorem claim_C1 (s u : Fields) (s2 : Fields) (evts : List Fields)
    (hu : wfState u = true)
    (hok : setStateValidated s u true = Except.ok (s2, evts)) :
    (evts = [] ↔ diffedUpdatedState s u = []) ∧
    (diffedUpdatedState s u ≠ [] → evts = [diffedUpdatedState s u]) ∧
    (∀ (k : String) (q : List String) (v : Val),
      getPath (.vObj (diffedUpdatedState s u)) (k :: q) = some v →
      v.isLeafB = true → getPath (.vObj s) (k :: q) ≠ some v) := by
  have part3 : ∀ (k : String) (q : List String) (v : Val),
      getPath (.vObj (diffedUpdatedState s u)) (k :: q) = some v →
      v.isLeafB = true → getPath (.vObj s) (k :: q) ≠ some v :=
    fun k q v hg hl => diffedUpdatedState_sound s u hu k q v hg hl
  have hok2 : (match mergeWrite s (flattenFields none u) with
      | Except.ok st1 => Except.ok (st1,
          if (diffedUpdatedState s u).isEmpty then ([] : List Fields)
          else [diffedUpdatedState s u])
      | Except.error e => Except.error e) = Except.ok (s2, evts) := hok
  cases hmw : mergeWrite s (flattenFields none u) with
  | error e =>
    simp only [hmw] at hok2
    exact Except.noConfusion hok2
  | ok st1 =>
    simp only [hmw] at hok2
    have hpair := Except.ok.inj hok2
    have hevts : evts = if (diffedUpdatedState s u).isEmpty then []
        else [diffedUpdatedState s u] := (congrArg Prod.snd hpair).symm
    by_cases hdl : diffedUpdatedState s u = []
    · have hie : (diffedUpdatedState s u).isEmpty = true := by
        rw [hdl]
        rfl
      rw [hie] at hevts
      simp at hevts
      subst hevts
      exact ⟨⟨fun _ => hdl, fun _ => rfl⟩, fun hcon => absurd hdl hcon, part3⟩
    · have hie : (diffedUpdatedState s u).isEmpty = false := by
        cases hx : diffedUpdatedState s u with
        | nil => exact absurd hx hdl
        | cons a l => rfl
      rw [hie] at hevts
      simp at hevts
      subst hevts
      exact ⟨⟨fun h1 => absurd h1 (by simp), fun h2 => absurd h2 hdl⟩,
        fun _ => rfl, part3⟩

/-- Witness for C1 at the spec's own example: from state `{t: 1, o: 2}`
the merge update `{t: 1, o: 3}` completes, emits once, and the payload
is exactly `{o: 3}`. -/
theorem claim_C1_witness :
    wfState [("t", Val.vInt 1), ("o", Val.vInt 3)] = true ∧
    setStateValidated [("t", Val.vInt 1), ("o", Val.vInt 2)]
      [("t", Val.vInt 1), ("o", Val.vInt 3)] true =
      Except.ok ([("t", Val.vInt 1), ("o", Val.vInt 3)],
        [[("o", Val.vInt 3)]]) ∧
    (diffedUpdatedState [("t", Val.vInt 1), ("o", Val.vInt 2)]
        [("t", Val.vInt 1), ("o", Val.vInt 3)] ≠ [] →
      [[("o", Val.vInt 3)]] =
        [diffedUpdatedState [("t", Val.vInt 1), ("o", Val.vInt 2)]
          [("t", Val.vInt 1), ("o", Val.vInt 3)]]) :=
  ⟨by decide, by decide,
    (claim_C1 [("t", Val.vInt 1), ("o", Val.vInt 2)]
      [("t", Val.vInt 1), ("o", Val.vInt 3)]
      [("t", Val.vInt 1), ("o", Val.vInt 3)] [[("o", Val.vInt 3)]]
      (by decide) (by decide)).2.1⟩

/-- Witness for C6: two states with the same properties inserted in
different orders (at the root and in a nested mapping) produce the same
fingerprint. -/
theorem claim_C6_witness :
    wfState [("a", Val.vInt 1), ("b", Val.vObj [("x", Val.vInt 1), ("y", Val.vNull)])] = true ∧
    wfState [("b", Val.vObj [("y", Val.vNull), ("x", Val.vInt 1)]), ("a", Val.vInt 1)] = true ∧
    structEqB
      (.vObj [("a", Val.vInt 1), ("b", Val.vObj [("x", Val.vInt 1), ("y", Val.vNull)])])
      (.vObj [("b", Val.vObj [("y", Val.vNull), ("x", Val.vInt 1)]), ("a", Val.vInt 1)]) = true ∧
    getHash [("a", Val.vInt 1), ("b", Val.vObj [("x", Val.vInt 1), ("y", Val.vNull)])] =
      getHash [("b", Val.vObj [("y", Val.vNull), ("x", Val.vInt 1)]), ("a", Val.vInt 1)] :=
  ⟨by decide, by decide, by decide,
    claim_C6.2
      [("a", Val.vInt 1), ("b", Val.vObj [("x", Val.vInt 1), ("y", Val.vNull)])]
      [("b", Val.vObj [("y", Val.vNull), ("x", Val.vInt 1)]), ("a", Val.vInt 1)]
      (by decide) (by decide) (by decide)⟩

/-- Witness for C2 (amended): the spec's own merge chain —
`{a: {x: 1}}` merged with `{a: {y: 2}}` yields `{a: {x: 1, y: 2}}`,
which merged with `{a: {x: null}}` yields `{a: {x: null, y: 2}}` (the
explicit `null` is stored, not treated as a deletion) — plus the
retention theorem applied to the first merge (key `"b"` untouched) and
the immediate-parent coercion at `{a: 5}` merged with `{a: {b: 1}}`. -/
theorem claim_C2_witness :
    setStateValidated [("a", Val.vObj [("x", Val.vInt 1)]), ("b", Val.vInt 9)]
      [("a", Val.vObj [("y", Val.vInt 2)])] true =
      Except.ok ([("a", Val.vObj [("x", Val.vInt 1), ("y", Val.vInt 2)]), ("b", Val.vInt 9)],
        [[("a", Val.vObj [("y", Val.vInt 2)])]]) ∧
    setStateValidated [("a", Val.vObj [("x", Val.vInt 1), ("y", Val.vInt 2)])]
      [("a", Val.vObj [("x", Val.vNull)])] true =
      Except.ok ([("a", Val.vObj [("x", Val.vNull), ("y", Val.vInt 2)])],
        [[("a", Val.vObj [("x", Val.vNull)])]]) ∧
    ("b" ∉ keysF [("a", Val.vObj [("y", Val.vInt 2)])] ∧
      lookupF "b" [("a", Val.vObj [("x", Val.vInt 1), ("y", Val.vInt 2)]), ("b", Val.vInt 9)] =
        lookupF "b" [("a", Val.vObj [("x", Val.vInt 1)]), ("b", Val.vInt 9)]) ∧
    (lookupF "a" [("a", Val.vInt 5)] = some (Val.vInt 5) ∧
      mergeWrite [("a", Val.vInt 5)] [("a" ++ "." ++ "b", Val.vInt 1)] =
        Except.ok (upsertF [("a", Val.vInt 5)] "a" (.vObj [("b", Val.vInt 1)]))) :=
  ⟨by decide, by decide,
    ⟨by decide,
      claim_C2.1 [("a", Val.vObj [("x", Val.vInt 1)]), ("b", Val.vInt 9)]
        [("a", Val.vObj [("y", Val.vInt 2)])]
        [("a", Val.vObj [("x", Val.vInt 1), ("y", Val.vInt 2)]), ("b", Val.vInt 9)]
        [[("a", Val.vObj [("y", Val.vInt 2)])]] (by decide) (by decide) "b"
        (by decide)⟩,
    ⟨by decide,
      claim_C2.2 [("a", Val.vInt 5)] "a" "b" (Val.vInt 1) (Val.vInt 5)
        (by decide) (by decide) (by decide) (by decide)⟩⟩

end SyncSpec
